import Mathlib

/-!
Verification of the background job-queue core of the Bluesky MTLD analyzer
(`app.py`) and its administrative cache-deletion tool (`delete_from_cache.py`).

The concurrency core of `app.py` consists of four pieces of shared state —
the job registry `_jobs` (a Python dict `job_id -> job record`), the FIFO
work queue `_queue`, the on-disk cache (a shelve dict guarded by
`_cache_lock`), and the worker's current item — together with the operations
that mutate them: the `/mtld` route (`mtld_route`), the worker loop
(`worker`), `update_positions`, `read_cache` and `write_cache`.

The embedding models one process execution as a sequence of atomic steps,
each corresponding to one critical section of the source:
* `Step.submit handle t` — one request to `mtld_route` at wall-clock second
  `t` (the value `now_iso()` returns during the request);
* `Step.workerBegin` — the worker's `_queue.get()` together with the
  `_jobs_lock` region that marks the job processing and recomputes
  positions (`app.py` lines 118–123);
* `Step.workerFinish out t` — the remainder of one worker iteration: the
  per-job analysis work succeeded with an MTLD value or raised with a
  message (`out`), followed by the cache write and the status update
  (`app.py` lines 125–157).

Two regions of one request, and two regions of one worker iteration, are
not protected by a common lock in the source: `_queue.put` (line 276) runs
only after the `_jobs_lock` region that computed `position =
_queue.qsize() + 1` (lines 273-274) has been released, and the worker's
`_queue.get()` (line 118) is separated from the `_jobs_lock` region that
flips the status and recomputes positions (lines 121-123). The coarse
semantics `step` above serializes each of these pairs into one transition;
it is used for the claims whose truth does not depend on those gaps. The
refined semantics `fstep` splits a request into `FStep.register` (the
assert, the cache check and the `_jobs_lock` registration) and
`FStep.enqueue` (that request's later unlocked `put`), and the worker
begin into `FStep.take` (the blocking `get`) and `FStep.mark` (the lock
region), so that registrations can overlap each other and the worker's
get-to-lock gap; the queue-position claims are settled against `fstep`.

Python dicts are insertion-ordered, so `_jobs` is modelled as an
association list in which assignment to an existing key replaces the value
in place and assignment to a fresh key appends. Machine details that no
claim exercises are abstracted: the sha256 job-id hash is modelled as the
identity on its input string `handle ++ ":" ++ timestamp` (the id is a
deterministic function of that string; hash collisions between distinct
inputs are not modelled, and no proof relies on distinct inputs hashing to
distinct ids), the MTLD float is carried as an opaque `Nat`, and timestamps
are opaque strings.
-/

/-- Job status, the four values of the `"status"` field in `_jobs`. -/
inductive Status where
  | queued
  | processing
  | done
  | error
deriving DecidableEq, Repr, BEq

/-- One record of the `_jobs` dict:
`{"status": ..., "handle": ..., "error": ..., "position": ...}`. -/
structure Job where
  status : Status
  handle : String
  error : Option String
  position : Nat
deriving DecidableEq, Repr

/-- One cache record as written by the worker:
`{"handle": ..., "date": ..., "posts": ..., "mtld": ...}`.
The float MTLD score is opaque to the core and carried as a `Nat`. -/
structure CacheEntry where
  handle : String
  date : String
  posts : Nat
  mtld : Nat
deriving DecidableEq, Repr

/-- Lookup in a Python dict modelled as an insertion-ordered association
list (`d[k]` / `k in d`). -/
def dictLookup {α : Type} (k : String) : List (String × α) → Option α
  | [] => none
  | (k', v) :: rest => if k' = k then some v else dictLookup k rest

/-- Assignment `d[k] = v` on a Python dict: replaces the value in place
when the key is present, appends at the end when it is fresh. -/
def dictInsert {α : Type} (k : String) (v : α) : List (String × α) → List (String × α)
  | [] => [(k, v)]
  | (k', v') :: rest =>
    if k' = k then (k, v) :: rest else (k', v') :: dictInsert k v rest

/-- Deletion `del d[k]` on a Python dict. -/
def dictRemove {α : Type} (k : String) : List (String × α) → List (String × α)
  | [] => []
  | (k', v') :: rest => if k' = k then rest else (k', v') :: dictRemove k rest

/-- In-place update of one job record (`_jobs[job_id][...] = ...`), which in
Python raises `KeyError` — modelled as `none` — when the id is absent. -/
def updateJob (k : String) (f : Job → Job) :
    List (String × Job) → Option (List (String × Job))
  | [] => none
  | (k', j) :: rest =>
    if k' = k then some ((k', f j) :: rest)
    else (updateJob k f rest).map (fun r => (k', j) :: r)

/-- Modelled `_jobs[job_id]["status"] = st`. -/
def setStatus (k : String) (st : Status) (jobs : List (String × Job)) :
    Option (List (String × Job)) :=
  updateJob k (fun j => { j with status := st }) jobs

/-- Modelled error path of the worker, the `_jobs_lock` region at
`app.py` lines 153–155: set status to `error` and record the message. -/
def markError (k : String) (msg : String) (jobs : List (String × Job)) :
    Option (List (String × Job)) :=
  updateJob k (fun j => { j with status := .error, error := some msg }) jobs

/-- Entries of `_jobs` whose status is queued, in dict (insertion) order:
the list comprehension inside `update_positions` and `get_queue_position`. -/
def queuedEntries (jobs : List (String × Job)) : List (String × Job) :=
  jobs.filter (fun p => decide (p.2.status = .queued))

/-- Renumbering pass of `update_positions`: every queued job, in dict
order, receives position `i`, `i+1`, …; other jobs are untouched. -/
def updatePositionsFrom (i : Nat) : List (String × Job) → List (String × Job)
  | [] => []
  | (k, j) :: rest =>
    if j.status = .queued then
      (k, { j with position := i }) :: updatePositionsFrom (i + 1) rest
    else
      (k, j) :: updatePositionsFrom i rest

/-- `update_positions()` (`app.py` lines 108–112): re-ranks all queued jobs
by their order in the `_jobs` dict, assigning positions 1, 2, …. -/
def update_positions (jobs : List (String × Job)) : List (String × Job) :=
  updatePositionsFrom 1 jobs

/-- `POST_LIMIT = 500`. -/
def POST_LIMIT : Nat := 500

/-- `job_id_for(handle)` computes
`hashlib.sha256(f"{handle}:{now_iso()}".encode()).hexdigest()[:12]`. The
hash is modelled as the identity on the hashed string, keeping the property
the claims exercise — the id is a deterministic function of the handle and
the second-resolution timestamp. No proof below relies on distinct hashed
strings yielding distinct ids. -/
def job_id_for (handle : String) (t : String) : String :=
  handle ++ ":" ++ t

/-- Whole shared state of the process: the `_jobs` registry, the FIFO
`_queue` (head = oldest item, each item the `(job_id, handle)` pair that
`mtld_route` enqueues), the shelve cache, and the item the worker is
currently processing (`none` while the worker is blocked in `get`). -/
structure AppState where
  jobs : List (String × Job)
  queue : List (String × String)
  cache : List (String × CacheEntry)
  current : Option (String × String)
deriving DecidableEq, Repr

/-- State at process start: everything empty, worker blocked. -/
def initState : AppState :=
  { jobs := [], queue := [], cache := [], current := none }

/-- `read_cache()`: under `_cache_lock`, open the shelf and return
`dict(cache)` — a copy of the whole mapping, not the live handle. In the
embedding the copy discipline of the source is what licenses returning the
mapping by value. -/
def read_cache (s : AppState) : List (String × CacheEntry) :=
  s.cache

/-- `write_cache(handle, entry)`: under `_cache_lock`, upsert one record. -/
def write_cache (handle : String) (e : CacheEntry) (s : AppState) : AppState :=
  { s with cache := dictInsert handle e s.cache }

/-- Result of one `/mtld` request. `assertFailed` is the
`AssertionError` of `assert handle, "handle required"` (the request fails,
the process lives on); `cachedRedirect` is the redirect to the existing
result (`hl=handle`); `jobCreated` is the redirect carrying the new job id. -/
inductive SubmitResult where
  | assertFailed (msg : String)
  | cachedRedirect (hl : String)
  | jobCreated (jid : String)
deriving DecidableEq, Repr

/-- `mtld_route` (`app.py` lines 260–279) at wall-clock second `t`. A
missing `handle` query parameter and an empty one are both falsy for the
`assert`, so the missing case is modelled by the empty string. -/
def mtld_route (handle : String) (t : String) (s : AppState) :
    SubmitResult × AppState :=
  if handle = "" then
    (.assertFailed "handle required", s)
  else
    let cache := read_cache s
    if (dictLookup handle cache).isSome then
      (.cachedRedirect handle, s)
    else
      let jid := job_id_for handle t
      let job : Job :=
        { status := .queued, handle := handle, error := none,
          position := s.queue.length + 1 }
      (.jobCreated jid,
        { s with
          jobs := dictInsert jid job s.jobs,
          queue := s.queue ++ [(jid, handle)] })

/-- Outcome of the guarded analysis work of one worker iteration (the
`try` block, `app.py` lines 125–144): either every step — fetch, file
read, preprocess, metric computation and the cache write — completed and
produced an MTLD score, or some step raised an exception carrying `msg`
(in which case nothing was written to the cache). -/
inductive JobOutcome where
  | success (mtld : Nat)
  | failure (msg : String)
deriving DecidableEq, Repr

/-- One atomic step of the process. -/
inductive Step where
  | submit (handle : String) (t : String)
  | workerBegin
  | workerFinish (out : JobOutcome) (t : String)
deriving DecidableEq, Repr

/-- Result of attempting a step: `blocked` when the step is not enabled
(worker waiting on an empty queue, or finishing with no current item),
`crashed` when the source would raise an uncaught exception in the worker
thread (a `KeyError` on `_jobs`), `ok s` when the step completes. -/
inductive StepResult where
  | blocked
  | crashed
  | ok (s : AppState)
deriving DecidableEq, Repr

/-- Small-step semantics of the core, one constructor per critical section
of the source (see the module docstring). -/
def step : Step → AppState → StepResult
  | .submit h t, s => .ok (mtld_route h t s).2
  | .workerBegin, s =>
    match s.current with
    | some _ => .blocked
    | none =>
      match s.queue with
      | [] => .blocked
      | (jid, h) :: rest =>
        match setStatus jid .processing s.jobs with
        | none => .crashed
        | some jobs1 =>
          .ok { s with
            jobs := update_positions jobs1,
            queue := rest,
            current := some (jid, h) }
  | .workerFinish out t, s =>
    match s.current with
    | none => .blocked
    | some (jid, h) =>
      match out with
      | .success m =>
        let entry : CacheEntry :=
          { handle := h, date := t, posts := POST_LIMIT, mtld := m }
        let s1 := write_cache h entry s
        match setStatus jid .done s1.jobs with
        | none => .crashed
        | some jobs2 => .ok { s1 with jobs := jobs2, current := none }
      | .failure msg =>
        match markError jid msg s.jobs with
        | none => .crashed
        | some jobs2 => .ok { s with jobs := jobs2, current := none }

/-- Total driver for concrete executions: apply the step if it completes,
keep the state otherwise. Counterexample traces pair this with an
`okTrace` check so that every step is genuinely an `ok` step. -/
def stepD (a : Step) (s : AppState) : AppState :=
  match step a s with
  | .ok s' => s'
  | _ => s

/-- Run a concrete list of steps with `stepD`. -/
def runD : List Step → AppState → AppState
  | [], s => s
  | a :: rest, s => runD rest (stepD a s)

/-- Check that every step of a trace completes (`ok`). -/
def okTrace : List Step → AppState → Bool
  | [], _ => true
  | a :: rest, s =>
    match step a s with
    | .ok s' => okTrace rest s'
    | _ => false

/-- States reachable from process start by completed steps. -/
inductive Reachable : AppState → Prop
  | init : Reachable initState
  | next {s s' : AppState} {a : Step} :
      Reachable s → step a s = .ok s' → Reachable s'

/-- Freshness of a step: a submission that passes the assert and the cache
check must issue a job id not already present in the registry. The source
does not guarantee this (two submissions of the same handle within the
same second hash to the same id); executions satisfying it at every step
are the collision-free ones. -/
def freshStep : Step → AppState → Bool
  | .submit h t, s =>
    h == "" || (dictLookup h s.cache).isSome ||
      (dictLookup (job_id_for h t) s.jobs).isNone
  | _, _ => true

/-- States reachable by completed steps none of which reuses a job id. -/
inductive ReachableNC : AppState → Prop
  | init : ReachableNC initState
  | next {s s' : AppState} {a : Step} :
      ReachableNC s → freshStep a s = true → step a s = .ok s' → ReachableNC s'

/-- Check that every step of a trace completes and is collision-free. -/
def okTraceNC : List Step → AppState → Bool
  | [], _ => true
  | a :: rest, s =>
    freshStep a s &&
      match step a s with
      | .ok s' => okTraceNC rest s'
      | _ => false

/-- Number of jobs whose status is queued. -/
def queuedCount (s : AppState) : Nat :=
  (queuedEntries s.jobs).length

/-- Positions of the queued jobs, in dict order. -/
def queuedPositions (jobs : List (String × Job)) : List Nat :=
  (queuedEntries jobs).map (fun p => p.2.position)

/-- Python's code-point comparison on characters. -/
def charLtB (a b : Char) : Bool :=
  a.val < b.val

/-- Python's lexicographic `<=` on strings, on their character lists. -/
def lexLeB : List Char → List Char → Bool
  | [], _ => true
  | _ :: _, [] => false
  | a :: as, b :: bs =>
    if charLtB a b then true
    else if charLtB b a then false
    else lexLeB as bs

/-- Insert into a sorted list of strings. -/
def insertSorted (x : String) : List String → List String
  | [] => [x]
  | y :: ys => if lexLeB x.data y.data then x :: y :: ys else y :: insertSorted x ys

/-- `sorted(cache.keys())` of `delete_from_cache.py`, modelled as insertion
sort under Python's lexicographic string order. -/
def sortStrings (l : List String) : List String :=
  l.foldr insertSorted []

/-- Outcome of `delete_from_cache.py`'s `main`. `usage` is the wrong
argument count; `deleted e` prints the removed entry; `notFound known`
prints the sorted list of known keys. -/
inductive DeleteResult where
  | usage
  | deleted (e : CacheEntry)
  | notFound (known : List String)
deriving DecidableEq, Repr

/-- `main` of `delete_from_cache.py` (lines 12–34): `argv` is
`sys.argv[1:]`. Returns the printed outcome, the cache contents after the
run, and the process exit code. -/
def delete_main (argv : List String) (cache : List (String × CacheEntry)) :
    DeleteResult × List (String × CacheEntry) × Nat :=
  match argv with
  | [handle] =>
    match dictLookup handle cache with
    | some e => (.deleted e, dictRemove handle cache, 0)
    | none => (.notFound (sortStrings (cache.map Prod.fst)), cache, 1)
  | _ => (.usage, cache, 1)

/-- Structural invariant of every reachable state: registry keys are
unique (Python dict keys), every id in the queue or held by the worker is
registered, and every handle that got past the `assert` is nonempty. -/
structure InvR (s : AppState) : Prop where
  nodup : (s.jobs.map Prod.fst).Nodup
  queueReg : ∀ jid h, (jid, h) ∈ s.queue → (dictLookup jid s.jobs).isSome
  currentReg : ∀ jid h, s.current = some (jid, h) → (dictLookup jid s.jobs).isSome
  queueNE : ∀ jid h, (jid, h) ∈ s.queue → h ≠ ""
  currentNE : ∀ jid h, s.current = some (jid, h) → h ≠ ""
  cacheNE : ∀ k, (dictLookup k s.cache).isSome → k ≠ ""

/-- Queue/registry agreement in collision-free executions: the FIFO queue
lists exactly the queued-status jobs in registry (submission) order, their
positions are 1..K with no gaps or duplicates, and the item the worker
holds is a registered processing job. -/
structure InvNC (s : AppState) : Prop where
  queueMatch : s.queue = (queuedEntries s.jobs).map (fun p => (p.1, p.2.handle))
  positions : (queuedEntries s.jobs).map (fun p => p.2.position) =
      List.range' 1 (queuedEntries s.jobs).length
  currentJob : ∀ jid h, s.current = some (jid, h) →
      ∃ j, dictLookup jid s.jobs = some j ∧ j.status = .processing ∧ j.handle = h

/-- Shared state of the process under the refined semantics. Besides the
components of `AppState` it records the two unlocked gaps of the source:
`pending` holds submissions that have run their `_jobs_lock` registration
(`app.py` lines 273-274) but not yet their `_queue.put` (line 276), and
`taken` holds an item the worker has received from `_queue.get()`
(line 118) but not yet processed in its `_jobs_lock` region
(lines 121-123). -/
structure FState where
  jobs : List (String × Job)
  queue : List (String × String)
  pending : List (String × String)
  taken : Option (String × String)
  cache : List (String × CacheEntry)
  current : Option (String × String)
deriving DecidableEq, Repr

/-- Refined state at process start. -/
def initF : FState :=
  { jobs := [], queue := [], pending := [], taken := none,
    cache := [], current := none }

/-- First half of one `/mtld` request: the assert, the cache check, and
the `_jobs_lock` region of `mtld_route` (`app.py` lines 262-274). The
position recorded is the live `_queue.qsize() + 1` of that instant; the
`(job_id, handle)` pair joins `pending` until the request performs its
`put`. The returned value is the response the request will eventually
send (the job id is fixed here, at line 272). -/
def register (handle t : String) (fs : FState) : SubmitResult × FState :=
  if handle = "" then
    (.assertFailed "handle required", fs)
  else if (dictLookup handle fs.cache).isSome then
    (.cachedRedirect handle, fs)
  else
    let jid := job_id_for handle t
    let job : Job :=
      { status := .queued, handle := handle, error := none,
        position := fs.queue.length + 1 }
    (.jobCreated jid,
      { fs with
        jobs := dictInsert jid job fs.jobs,
        pending := fs.pending ++ [(jid, handle)] })

/-- One atomic step of the refined semantics: `register` and `enqueue`
are the two halves of a request (`enqueue p` is the unlocked
`_queue.put` of the in-flight request that registered `p`); `take` and
`mark` are the two halves of a worker begin; `finish` is as in the
coarse semantics. -/
inductive FStep where
  | register (handle : String) (t : String)
  | enqueue (p : String × String)
  | take
  | mark
  | finish (out : JobOutcome) (t : String)
deriving DecidableEq, Repr

/-- Removal of one request's pair from the in-flight list (the request
that performs its `put` leaves `pending`): drops the first occurrence. -/
def removeFirst (p : String × String) :
    List (String × String) → List (String × String)
  | [] => []
  | q :: rest => if q = p then rest else q :: removeFirst p rest

/-- Whether a refined step is a registration. -/
def FStep.isRegister : FStep → Bool
  | .register _ _ => true
  | _ => false

/-- Result of attempting a refined step. -/
inductive FStepResult where
  | blocked
  | crashed
  | ok (fs : FState)
deriving DecidableEq, Repr

/-- Refined small-step semantics (see the module docstring). -/
def fstep : FStep → FState → FStepResult
  | .register h t, fs => .ok (register h t fs).2
  | .enqueue p, fs =>
    if p ∈ fs.pending then
      .ok { fs with queue := fs.queue ++ [p], pending := removeFirst p fs.pending }
    else
      .blocked
  | .take, fs =>
    match fs.current, fs.taken, fs.queue with
    | none, none, p :: rest => .ok { fs with queue := rest, taken := some p }
    | _, _, _ => .blocked
  | .mark, fs =>
    match fs.taken with
    | none => .blocked
    | some (jid, h) =>
      match setStatus jid .processing fs.jobs with
      | none => .crashed
      | some jobs1 =>
        .ok { fs with
          jobs := update_positions jobs1,
          taken := none,
          current := some (jid, h) }
  | .finish out t, fs =>
    match fs.current with
    | none => .blocked
    | some (jid, h) =>
      match out with
      | .success m =>
        let entry : CacheEntry :=
          { handle := h, date := t, posts := POST_LIMIT, mtld := m }
        match setStatus jid .done fs.jobs with
        | none => .crashed
        | some jobs2 =>
          .ok { fs with
            jobs := jobs2,
            cache := dictInsert h entry fs.cache,
            current := none }
      | .failure msg =>
        match markError jid msg fs.jobs with
        | none => .crashed
        | some jobs2 => .ok { fs with jobs := jobs2, current := none }

/-- Total driver for concrete refined executions. -/
def stepFD (a : FStep) (fs : FState) : FState :=
  match fstep a fs with
  | .ok fs' => fs'
  | _ => fs

/-- Run a concrete list of refined steps. -/
def runFD : List FStep → FState → FState
  | [], fs => fs
  | a :: rest, fs => runFD rest (stepFD a fs)

/-- Check that every refined step of a trace completes (`ok`). -/
def okTraceF : List FStep → FState → Bool
  | [], _ => true
  | a :: rest, fs =>
    match fstep a fs with
    | .ok fs' => okTraceF rest fs'
    | _ => false

/-- Freshness of a refined step, as for the coarse semantics: a
registration that passes the assert and the cache check must issue an id
not already registered. -/
def freshStepF : FStep → FState → Bool
  | .register h t, fs =>
    h == "" || (dictLookup h fs.cache).isSome ||
      (dictLookup (job_id_for h t) fs.jobs).isNone
  | _, _ => true

/-- Refined states reachable by completed, collision-free steps. -/
inductive FReachableNC : FState → Prop
  | init : FReachableNC initF
  | next {fs fs' : FState} {a : FStep} :
      FReachableNC fs → freshStepF a fs = true → fstep a fs = .ok fs' →
        FReachableNC fs'

/-- Check that every refined step of a trace completes and is
collision-free. -/
def okTraceFNC : List FStep → FState → Bool
  | [], _ => true
  | a :: rest, fs =>
    freshStepF a fs &&
      match fstep a fs with
      | .ok fs' => okTraceFNC rest fs'
      | _ => false

/-- Accounting invariant of collision-free refined executions: every
pair in the queue, in flight between registration and `put`, or held in
the worker's get-to-lock gap, is a registered job that is still Queued;
their ids are pairwise distinct; and the Queued jobs are counted exactly
by those three places. When `pending` is empty and `taken` is clear, the
queue length therefore equals the Queued count. -/
structure FInvNC (fs : FState) : Prop where
  items : ∀ p ∈ fs.queue ++ fs.pending ++ fs.taken.toList,
      ∃ j, dictLookup p.1 fs.jobs = some j ∧ j.status = .queued ∧
        j.handle = p.2
  itemsNodup : ((fs.queue ++ fs.pending ++ fs.taken.toList).map Prod.fst).Nodup
  count : (queuedEntries fs.jobs).length =
      fs.queue.length + fs.pending.length + fs.taken.toList.length
  currentJob : ∀ jid h, fs.current = some (jid, h) →
      ∃ j, dictLookup jid fs.jobs = some j ∧ j.status = .processing

/-- Position soundness between worker transition regions: the Queued
positions are exactly 1..K in registry order, and the job the worker is
processing is not Queued (so finishing it does not disturb the Queued
set). Established by every `mark` and preserved by every refined step
other than a registration. -/
def PosInv (fs : FState) : Prop :=
  queuedPositions fs.jobs = List.range' 1 (queuedEntries fs.jobs).length ∧
  ∀ jid h, fs.current = some (jid, h) →
    ∃ j, dictLookup jid fs.jobs = some j ∧ j.status ≠ .queued

theorem dictLookup_isSome_iff_mem {α : Type} {k : String} {m : List (String × α)} :
    (dictLookup k m).isSome ↔ k ∈ m.map Prod.fst := by
  induction m with
  | nil => simp [dictLookup]
  | cons p rest ih =>
    obtain ⟨k', v'⟩ := p
    by_cases hk : k' = k
    · subst hk
      simp [dictLookup]
    · simp [dictLookup, hk, ih, Ne.symm hk]

theorem dictLookup_append_left {α : Type} {k : String} {v : α}
    {m l : List (String × α)} (h : dictLookup k m = some v) :
    dictLookup k (m ++ l) = some v := by
  induction m with
  | nil => simp [dictLookup] at h
  | cons p rest ih =>
    obtain ⟨k', v'⟩ := p
    by_cases hk : k' = k
    · subst hk
      simp [dictLookup] at h ⊢
      exact h
    · simp [dictLookup, hk] at h ⊢
      exact ih h

theorem dictLookup_append_of_none {α : Type} {k : String}
    {m l : List (String × α)} (h : dictLookup k m = none) :
    dictLookup k (m ++ l) = dictLookup k l := by
  induction m with
  | nil => simp
  | cons p rest ih =>
    obtain ⟨k', v'⟩ := p
    by_cases hk : k' = k
    · subst hk
      simp [dictLookup] at h
    · simp [dictLookup, hk] at h ⊢
      exact ih h

theorem dictInsert_of_lookup_none {α : Type} {k : String} {v : α}
    {m : List (String × α)} (h : dictLookup k m = none) :
    dictInsert k v m = m ++ [(k, v)] := by
  induction m with
  | nil => simp [dictInsert]
  | cons p rest ih =>
    obtain ⟨k', v'⟩ := p
    by_cases hk : k' = k
    · subst hk
      simp [dictLookup] at h
    · simp [dictLookup, hk] at h
      simp [dictInsert, hk, ih h]

theorem dictLookup_dictInsert_self {α : Type} {k : String} {v : α}
    {m : List (String × α)} :
    dictLookup k (dictInsert k v m) = some v := by
  induction m with
  | nil => simp [dictInsert, dictLookup]
  | cons p rest ih =>
    obtain ⟨k', v'⟩ := p
    by_cases hk : k' = k
    · subst hk
      simp [dictInsert, dictLookup]
    · simp [dictInsert, dictLookup, hk, ih]

theorem dictLookup_dictInsert_ne {α : Type} {k k' : String} {v : α}
    {m : List (String × α)} (h : k' ≠ k) :
    dictLookup k' (dictInsert k v m) = dictLookup k' m := by
  have hne : ¬ (k = k') := Ne.symm h
  induction m with
  | nil => simp [dictInsert, dictLookup, hne]
  | cons p rest ih =>
    obtain ⟨k1, v1⟩ := p
    by_cases hk : k1 = k
    · subst hk
      simp [dictInsert, dictLookup, hne]
    · simp only [dictInsert, if_neg hk]
      by_cases hk1 : k1 = k'
      · subst hk1
        simp [dictLookup]
      · simp [dictLookup, hk1, ih]

theorem dictInsert_map_fst_nodup {α : Type} {k : String} {v : α}
    {m : List (String × α)} (h : (m.map Prod.fst).Nodup) :
    ((dictInsert k v m).map Prod.fst).Nodup := by
  by_cases hmem : (dictLookup k m).isSome
  · have : (dictInsert k v m).map Prod.fst = m.map Prod.fst := by
      clear h
      induction m with
      | nil => simp [dictLookup] at hmem
      | cons p rest ih =>
        obtain ⟨k1, v1⟩ := p
        by_cases hk : k1 = k
        · subst hk
          simp [dictInsert]
        · simp [dictLookup, hk] at hmem
          simp [dictInsert, hk, ih hmem]
    rw [this]
    exact h
  · rw [Option.not_isSome_iff_eq_none] at hmem
    rw [dictInsert_of_lookup_none hmem]
    rw [List.map_append]
    simp only [List.map_cons, List.map_nil]
    rw [List.nodup_append]
    refine ⟨h, List.nodup_singleton k, ?_⟩
    intro a ha hb
    simp at hb
    subst hb
    rw [← dictLookup_isSome_iff_mem, hmem] at ha
    simp at ha

theorem dictLookup_dictRemove_self {α : Type} {k : String}
    {m : List (String × α)} (h : (m.map Prod.fst).Nodup) :
    dictLookup k (dictRemove k m) = none := by
  induction m with
  | nil => simp [dictRemove, dictLookup]
  | cons p rest ih =>
    obtain ⟨k1, v1⟩ := p
    simp only [List.map_cons, List.nodup_cons] at h
    by_cases hk : k1 = k
    · subst hk
      rw [show dictRemove k1 ((k1, v1) :: rest) = rest from by simp [dictRemove]]
      rw [← Option.not_isSome_iff_eq_none, dictLookup_isSome_iff_mem]
      exact h.1
    · simp [dictRemove, dictLookup, hk, ih h.2]

theorem dictLookup_dictRemove_ne {α : Type} {k k' : String}
    {m : List (String × α)} (h : k' ≠ k) :
    dictLookup k' (dictRemove k m) = dictLookup k' m := by
  have hne : ¬ (k = k') := Ne.symm h
  induction m with
  | nil => simp [dictRemove]
  | cons p rest ih =>
    obtain ⟨k1, v1⟩ := p
    by_cases hk : k1 = k
    · subst hk
      simp [dictRemove, dictLookup, hne]
    · by_cases hk1 : k1 = k'
      · subst hk1
        simp [dictRemove, hk, dictLookup]
      · simp [dictRemove, hk, dictLookup, hk1, ih]

theorem queuedEntries_cons {k : String} {j : Job} {rest : List (String × Job)} :
    queuedEntries ((k, j) :: rest) =
      if j.status = .queued then (k, j) :: queuedEntries rest
      else queuedEntries rest := by
  by_cases hq : j.status = .queued
  · simp [queuedEntries, List.filter_cons, hq]
  · simp [queuedEntries, List.filter_cons, hq]

theorem queuedEntries_append {m l : List (String × Job)} :
    queuedEntries (m ++ l) = queuedEntries m ++ queuedEntries l := by
  simp [queuedEntries, List.filter_append]

theorem mem_of_mem_queuedEntries {p : String × Job} {m : List (String × Job)}
    (h : p ∈ queuedEntries m) : p ∈ m :=
  List.mem_of_mem_filter h

theorem dictLookup_eq_of_mem_nodup {α : Type} {k : String} {v : α}
    {m : List (String × α)} (hn : (m.map Prod.fst).Nodup) (h : (k, v) ∈ m) :
    dictLookup k m = some v := by
  induction m with
  | nil => simp at h
  | cons p rest ih =>
    obtain ⟨k1, v1⟩ := p
    simp only [List.map_cons, List.nodup_cons] at hn
    rcases List.mem_cons.mp h with hhead | htail
    · obtain ⟨hk, hv⟩ := Prod.mk.injEq .. ▸ hhead
      subst hk
      subst hv
      simp [dictLookup]
    · by_cases hk : k1 = k
      · subst hk
        exact absurd (List.mem_map.mpr ⟨(k1, v), htail, rfl⟩) hn.1
      · simp [dictLookup, hk, ih hn.2 htail]

theorem updateJob_eq_none_iff {k : String} {f : Job → Job}
    {m : List (String × Job)} :
    updateJob k f m = none ↔ dictLookup k m = none := by
  induction m with
  | nil => simp [updateJob, dictLookup]
  | cons p rest ih =>
    obtain ⟨k1, j⟩ := p
    by_cases hk : k1 = k
    · subst hk
      simp [updateJob, dictLookup]
    · cases hu : updateJob k f rest with
      | none => simp [updateJob, dictLookup, hk, hu, ih.mp hu]
      | some r =>
        have : dictLookup k rest ≠ none := fun hr => by
          rw [← ih] at hr
          rw [hr] at hu
          cases hu
        simp [updateJob, dictLookup, hk, hu, this]

theorem updateJob_isSome {k : String} {f : Job → Job}
    {m : List (String × Job)} (h : (dictLookup k m).isSome) :
    (updateJob k f m).isSome := by
  cases hu : updateJob k f m with
  | none =>
    rw [updateJob_eq_none_iff.mp hu] at h
    cases h
  | some r => rfl

theorem updateJob_lookup_self {k : String} {f : Job → Job}
    {m m' : List (String × Job)} (h : updateJob k f m = some m') :
    dictLookup k m' = (dictLookup k m).map f := by
  induction m generalizing m' with
  | nil => cases h
  | cons p rest ih =>
    obtain ⟨k1, j⟩ := p
    by_cases hk : k1 = k
    · subst hk
      simp [updateJob] at h
      subst h
      simp [dictLookup]
    · simp only [updateJob, if_neg hk] at h
      cases hu : updateJob k f rest with
      | none => rw [hu] at h; cases h
      | some r =>
        rw [hu] at h
        simp only [Option.map_some', Option.some.injEq] at h
        subst h
        simp [dictLookup, hk, ih hu]

theorem updateJob_lookup_ne {k k' : String} {f : Job → Job}
    {m m' : List (String × Job)} (h : updateJob k f m = some m')
    (hne : k' ≠ k) :
    dictLookup k' m' = dictLookup k' m := by
  induction m generalizing m' with
  | nil => cases h
  | cons p rest ih =>
    obtain ⟨k1, j⟩ := p
    by_cases hk : k1 = k
    · subst hk
      simp [updateJob] at h
      subst h
      simp [dictLookup, Ne.symm hne]
    · simp only [updateJob, if_neg hk] at h
      cases hu : updateJob k f rest with
      | none => rw [hu] at h; cases h
      | some r =>
        rw [hu] at h
        simp only [Option.map_some', Option.some.injEq] at h
        subst h
        simp [dictLookup, ih hu]

theorem updateJob_map_fst {k : String} {f : Job → Job}
    {m m' : List (String × Job)} (h : updateJob k f m = some m') :
    m'.map Prod.fst = m.map Prod.fst := by
  induction m generalizing m' with
  | nil => cases h
  | cons p rest ih =>
    obtain ⟨k1, j⟩ := p
    by_cases hk : k1 = k
    · subst hk
      simp [updateJob] at h
      subst h
      simp
    · simp only [updateJob, if_neg hk] at h
      cases hu : updateJob k f rest with
      | none => rw [hu] at h; cases h
      | some r =>
        rw [hu] at h
        simp only [Option.map_some', Option.some.injEq] at h
        subst h
        simp [ih hu]

theorem updateJob_queuedEntries_of_not_queued {k : String} {f : Job → Job}
    {m m' : List (String × Job)} {j : Job} (h : updateJob k f m = some m')
    (hl : dictLookup k m = some j) (hj : j.status ≠ .queued)
    (hfj : (f j).status ≠ .queued) :
    queuedEntries m' = queuedEntries m := by
  induction m generalizing m' with
  | nil => cases h
  | cons p rest ih =>
    obtain ⟨k1, j1⟩ := p
    by_cases hk : k1 = k
    · subst hk
      simp [updateJob] at h
      subst h
      simp [dictLookup] at hl
      subst hl
      rw [queuedEntries_cons, queuedEntries_cons, if_neg hj, if_neg hfj]
    · simp only [updateJob, if_neg hk] at h
      simp only [dictLookup, if_neg hk] at hl
      cases hu : updateJob k f rest with
      | none => rw [hu] at h; cases h
      | some r =>
        rw [hu] at h
        simp only [Option.map_some', Option.some.injEq] at h
        subst h
        rw [queuedEntries_cons, queuedEntries_cons, ih hu hl]

theorem updateJob_queuedEntries_head {k : String} {f : Job → Job}
    {m m' restQ : List (String × Job)} {j : Job}
    (hn : (m.map Prod.fst).Nodup)
    (hq : queuedEntries m = (k, j) :: restQ)
    (hfj : (f j).status ≠ .queued)
    (h : updateJob k f m = some m') :
    queuedEntries m' = restQ := by
  induction m generalizing m' with
  | nil => cases h
  | cons p rest ih =>
    obtain ⟨k1, j1⟩ := p
    simp only [List.map_cons, List.nodup_cons] at hn
    by_cases hq1 : j1.status = .queued
    · rw [queuedEntries_cons, if_pos hq1] at hq
      obtain ⟨hhead, htail⟩ := List.cons.injEq .. ▸ hq
      obtain ⟨hk, hj⟩ := Prod.mk.injEq .. ▸ hhead
      subst hk
      subst hj
      simp [updateJob] at h
      subst h
      rw [queuedEntries_cons, if_neg hfj]
      exact htail
    · rw [queuedEntries_cons, if_neg hq1] at hq
      by_cases hk : k1 = k
      · subst hk
        have : (k1, j) ∈ rest := by
          apply mem_of_mem_queuedEntries
          rw [hq]
          exact List.mem_cons_self _ _
        exact absurd (List.mem_map.mpr ⟨(k1, j), this, rfl⟩) hn.1
      · simp only [updateJob, if_neg hk] at h
        cases hu : updateJob k f rest with
        | none => rw [hu] at h; cases h
        | some r =>
          rw [hu] at h
          simp only [Option.map_some', Option.some.injEq] at h
          subst h
          rw [queuedEntries_cons, if_neg hq1]
          exact ih hn.2 hq hu

theorem updatePositionsFrom_map_fst {i : Nat} {m : List (String × Job)} :
    (updatePositionsFrom i m).map Prod.fst = m.map Prod.fst := by
  induction m generalizing i with
  | nil => simp [updatePositionsFrom]
  | cons p rest ih =>
    obtain ⟨k, j⟩ := p
    by_cases hq : j.status = .queued
    · simp [updatePositionsFrom, hq, ih]
    · simp [updatePositionsFrom, hq, ih]

theorem queuedEntries_updatePositionsFrom_keyHandle {i : Nat}
    {m : List (String × Job)} :
    (queuedEntries (updatePositionsFrom i m)).map (fun p => (p.1, p.2.handle)) =
      (queuedEntries m).map (fun p => (p.1, p.2.handle)) := by
  induction m generalizing i with
  | nil => simp [updatePositionsFrom]
  | cons p rest ih =>
    obtain ⟨k, j⟩ := p
    by_cases hq : j.status = .queued
    · simp only [updatePositionsFrom, if_pos hq]
      rw [queuedEntries_cons, queuedEntries_cons, if_pos hq, if_pos hq]
      simp [ih]
    · simp only [updatePositionsFrom, if_neg hq]
      rw [queuedEntries_cons, queuedEntries_cons, if_neg hq, if_neg hq]
      exact ih

theorem queuedEntries_updatePositionsFrom_length {i : Nat}
    {m : List (String × Job)} :
    (queuedEntries (updatePositionsFrom i m)).length =
      (queuedEntries m).length := by
  have h := @queuedEntries_updatePositionsFrom_keyHandle i m
  have := congrArg List.length h
  simpa using this

theorem queuedEntries_updatePositionsFrom_positions {i : Nat}
    {m : List (String × Job)} :
    (queuedEntries (updatePositionsFrom i m)).map (fun p => p.2.position) =
      List.range' i (queuedEntries m).length := by
  induction m generalizing i with
  | nil => simp [updatePositionsFrom, queuedEntries]
  | cons p rest ih =>
    obtain ⟨k, j⟩ := p
    by_cases hq : j.status = .queued
    · simp only [updatePositionsFrom, if_pos hq]
      rw [queuedEntries_cons, queuedEntries_cons, if_pos hq, if_pos hq]
      simp only [List.map_cons, List.length_cons]
      rw [List.range'_succ, ih]
    · simp only [updatePositionsFrom, if_neg hq]
      rw [queuedEntries_cons, queuedEntries_cons, if_neg hq, if_neg hq]
      exact ih

theorem updatePositionsFrom_lookup_not_queued {i : Nat} {k : String} {j : Job}
    {m : List (String × Job)} (hl : dictLookup k m = some j)
    (hj : j.status ≠ .queued) :
    dictLookup k (updatePositionsFrom i m) = some j := by
  induction m generalizing i with
  | nil => cases hl
  | cons p rest ih =>
    obtain ⟨k1, j1⟩ := p
    by_cases hk : k1 = k
    · subst hk
      simp [dictLookup] at hl
      subst hl
      simp [updatePositionsFrom, hj, dictLookup]
    · simp only [dictLookup, if_neg hk] at hl
      by_cases hq : j1.status = .queued
      · simp only [updatePositionsFrom, if_pos hq]
        simp [dictLookup, hk, ih hl]
      · simp only [updatePositionsFrom, if_neg hq]
        simp [dictLookup, hk, ih hl]

theorem reachable_runD {s : AppState} (tr : List Step)
    (h : okTrace tr s = true) (hs : Reachable s) :
    Reachable (runD tr s) := by
  induction tr generalizing s with
  | nil => exact hs
  | cons a rest ih =>
    simp only [okTrace] at h
    cases hst : step a s with
    | blocked => rw [hst] at h; cases h
    | crashed => rw [hst] at h; cases h
    | ok s' =>
      rw [hst] at h
      have hd : stepD a s = s' := by simp [stepD, hst]
      simp only [runD, hd]
      exact ih h.symm.symm (Reachable.next hs hst)

theorem reachableNC_runD {s : AppState} (tr : List Step)
    (h : okTraceNC tr s = true) (hs : ReachableNC s) :
    ReachableNC (runD tr s) := by
  induction tr generalizing s with
  | nil => exact hs
  | cons a rest ih =>
    simp only [okTraceNC, Bool.and_eq_true] at h
    obtain ⟨hfresh, h⟩ := h
    cases hst : step a s with
    | blocked => rw [hst] at h; cases h
    | crashed => rw [hst] at h; cases h
    | ok s' =>
      rw [hst] at h
      have hd : stepD a s = s' := by simp [stepD, hst]
      simp only [runD, hd]
      exact ih h (ReachableNC.next hs hfresh hst)

theorem ReachableNC.toReachable {s : AppState} (h : ReachableNC s) :
    Reachable s := by
  induction h with
  | init => exact Reachable.init
  | next _ _ hstep ih => exact Reachable.next ih hstep

theorem mtld_route_empty {t : String} {s : AppState} :
    mtld_route "" t s = (.assertFailed "handle required", s) := by
  simp [mtld_route]

theorem mtld_route_cached {h t : String} {s : AppState} {e : CacheEntry}
    (hh : h ≠ "") (hc : dictLookup h s.cache = some e) :
    mtld_route h t s = (.cachedRedirect h, s) := by
  simp [mtld_route, read_cache, hh, hc]

theorem mtld_route_uncached {h t : String} {s : AppState}
    (hh : h ≠ "") (hc : dictLookup h s.cache = none) :
    mtld_route h t s =
      (.jobCreated (job_id_for h t),
        { s with
          jobs := dictInsert (job_id_for h t)
            { status := .queued, handle := h, error := none,
              position := s.queue.length + 1 } s.jobs,
          queue := s.queue ++ [(job_id_for h t, h)] }) := by
  simp [mtld_route, read_cache, hh, hc]

theorem lookup_isSome_of_map_fst_eq {α : Type} {k : String}
    {m m' : List (String × α)} (hf : m'.map Prod.fst = m.map Prod.fst)
    (h : (dictLookup k m).isSome) : (dictLookup k m').isSome := by
  rw [dictLookup_isSome_iff_mem] at h ⊢
  rw [hf]
  exact h

theorem invR_step {a : Step} {s s' : AppState}
    (hst : step a s = .ok s') (inv : InvR s) : InvR s' := by
  cases a with
  | submit h t =>
    simp only [step, StepResult.ok.injEq] at hst
    by_cases hh : h = ""
    · subst hh
      rw [mtld_route_empty] at hst
      exact hst ▸ inv
    · cases hc : dictLookup h s.cache with
      | some e =>
        rw [mtld_route_cached hh hc] at hst
        exact hst ▸ inv
      | none =>
        rw [mtld_route_uncached hh hc] at hst
        subst hst
        set jid := job_id_for h t with hjid
        refine ⟨?_, ?_, ?_, ?_, ?_, ?_⟩
        · exact dictInsert_map_fst_nodup inv.nodup
        · intro jid' h' hmem
          rcases List.mem_append.mp hmem with hold | hnew
          · by_cases hjj : jid' = jid
            · subst hjj
              simp [dictLookup_dictInsert_self]
            · rw [dictLookup_dictInsert_ne hjj]
              exact inv.queueReg jid' h' hold
          · simp at hnew
            obtain ⟨h1, h2⟩ := hnew
            subst h1
            simp [dictLookup_dictInsert_self]
        · intro jid' h' hcur
          by_cases hjj : jid' = jid
          · subst hjj
            simp [dictLookup_dictInsert_self]
          · rw [dictLookup_dictInsert_ne hjj]
            exact inv.currentReg jid' h' hcur
        · intro jid' h' hmem
          rcases List.mem_append.mp hmem with hold | hnew
          · exact inv.queueNE jid' h' hold
          · simp at hnew
            obtain ⟨h1, h2⟩ := hnew
            subst h2
            exact hh
        · exact inv.currentNE
        · exact inv.cacheNE
  | workerBegin =>
    cases hcur : s.current with
    | some c => simp [step, hcur] at hst
    | none =>
      cases hq : s.queue with
      | nil => simp [step, hcur, hq] at hst
      | cons p rest =>
        obtain ⟨jid, h⟩ := p
        cases hss : setStatus jid .processing s.jobs with
        | none => simp [step, hcur, hq, hss] at hst
        | some jobs1 =>
          simp only [step, hcur, hq, hss, StepResult.ok.injEq] at hst
          subst hst
          simp only [setStatus] at hss
          have hfst : (update_positions jobs1).map Prod.fst = s.jobs.map Prod.fst := by
            rw [update_positions, updatePositionsFrom_map_fst, updateJob_map_fst hss]
          refine ⟨?_, ?_, ?_, ?_, ?_, ?_⟩
          · rw [hfst]
            exact inv.nodup
          · intro jid' h' hmem
            exact lookup_isSome_of_map_fst_eq hfst
              (inv.queueReg jid' h' (hq ▸ List.mem_cons_of_mem _ hmem))
          · intro jid' h' hcur'
            simp only [Option.some.injEq] at hcur'
            obtain ⟨h1, h2⟩ := Prod.mk.injEq .. ▸ hcur'.symm
            subst h1
            subst h2
            exact lookup_isSome_of_map_fst_eq hfst
              (inv.queueReg _ _ (hq ▸ List.mem_cons_self _ _))
          · intro jid' h' hmem
            exact inv.queueNE jid' h' (hq ▸ List.mem_cons_of_mem _ hmem)
          · intro jid' h' hcur'
            simp only [Option.some.injEq] at hcur'
            obtain ⟨h1, h2⟩ := Prod.mk.injEq .. ▸ hcur'.symm
            subst h1
            subst h2
            exact inv.queueNE _ _ (hq ▸ List.mem_cons_self _ _)
          · exact inv.cacheNE
  | workerFinish out t =>
    cases hcur : s.current with
    | none => simp [step, hcur] at hst
    | some c =>
      obtain ⟨jid, h⟩ := c
      cases out with
      | success m =>
        cases hss : setStatus jid .done (write_cache h
            { handle := h, date := t, posts := POST_LIMIT, mtld := m } s).jobs with
        | none => simp [step, hcur, hss] at hst
        | some jobs2 =>
          simp only [step, hcur, hss, StepResult.ok.injEq] at hst
          subst hst
          simp only [write_cache, setStatus] at hss ⊢
          have hfst : jobs2.map Prod.fst = s.jobs.map Prod.fst :=
            updateJob_map_fst hss
          refine ⟨?_, ?_, ?_, ?_, ?_, ?_⟩
          · rw [hfst]
            exact inv.nodup
          · intro jid' h' hmem
            exact lookup_isSome_of_map_fst_eq hfst (inv.queueReg jid' h' hmem)
          · intro jid' h' hcur'
            cases hcur'
          · exact inv.queueNE
          · intro jid' h' hcur'
            cases hcur'
          · intro k hk
            by_cases hkh : k = h
            · subst hkh
              exact inv.currentNE jid k hcur
            · rw [dictLookup_dictInsert_ne hkh] at hk
              exact inv.cacheNE k hk
      | failure msg =>
        cases hss : markError jid msg s.jobs with
        | none => simp [step, hcur, hss] at hst
        | some jobs2 =>
          simp only [step, hcur, hss, StepResult.ok.injEq] at hst
          subst hst
          simp only [markError] at hss
          have hfst : jobs2.map Prod.fst = s.jobs.map Prod.fst :=
            updateJob_map_fst hss
          refine ⟨?_, ?_, ?_, ?_, ?_, ?_⟩
          · rw [hfst]
            exact inv.nodup
          · intro jid' h' hmem
            exact lookup_isSome_of_map_fst_eq hfst (inv.queueReg jid' h' hmem)
          · intro jid' h' hcur'
            cases hcur'
          · exact inv.queueNE
          · intro jid' h' hcur'
            cases hcur'
          · exact inv.cacheNE

theorem reachable_invR {s : AppState} (h : Reachable s) : InvR s := by
  induction h with
  | init =>
    refine ⟨?_, ?_, ?_, ?_, ?_, ?_⟩ <;> simp [initState, dictLookup]
  | next _ hstep ih => exact invR_step hstep ih

theorem invNC_step {a : Step} {s s' : AppState} (hR : Reachable s)
    (hfresh : freshStep a s = true) (hst : step a s = .ok s')
    (inv : InvNC s) : InvNC s' := by
  cases a with
  | submit h t =>
    simp only [step, StepResult.ok.injEq] at hst
    by_cases hh : h = ""
    · subst hh
      rw [mtld_route_empty] at hst
      exact hst ▸ inv
    · cases hc : dictLookup h s.cache with
      | some e =>
        rw [mtld_route_cached hh hc] at hst
        exact hst ▸ inv
      | none =>
        have hfree : dictLookup (job_id_for h t) s.jobs = none := by
          cases hjf : dictLookup (job_id_for h t) s.jobs with
          | none => rfl
          | some v =>
            exfalso
            simp only [freshStep] at hfresh
            rw [hjf, hc] at hfresh
            simp [hh] at hfresh
        rw [mtld_route_uncached hh hc] at hst
        subst hst
        have hlen : s.queue.length = (queuedEntries s.jobs).length := by
          rw [inv.queueMatch, List.length_map]
        have hqe : queuedEntries (dictInsert (job_id_for h t)
            { status := .queued, handle := h, error := none,
              position := s.queue.length + 1 } s.jobs) =
            queuedEntries s.jobs ++ [(job_id_for h t,
              { status := .queued, handle := h, error := none,
                position := s.queue.length + 1 })] := by
          rw [dictInsert_of_lookup_none hfree, queuedEntries_append]
          congr 1
        refine ⟨?_, ?_, ?_⟩
        · simp only [hqe, List.map_append, List.map_cons, List.map_nil]
          rw [← inv.queueMatch]
        · simp only [hqe, List.map_append, List.map_cons, List.map_nil,
            List.length_append, List.length_cons, List.length_nil, Nat.zero_add]
          rw [inv.positions, hlen, List.range'_concat]
          congr 1
          simp only [List.cons.injEq, and_true]
          omega
        · intro jid' h' hcur'
          simp only at hcur'
          obtain ⟨j, hj, hjs, hjh⟩ := inv.currentJob jid' h' hcur'
          refine ⟨j, ?_, hjs, hjh⟩
          by_cases hjj : jid' = job_id_for h t
          · subst hjj
            rw [hfree] at hj
            cases hj
          · rw [dictLookup_dictInsert_ne hjj]
            exact hj
  | workerBegin =>
    cases hcur : s.current with
    | some c => simp [step, hcur] at hst
    | none =>
      cases hq : s.queue with
      | nil => simp [step, hcur, hq] at hst
      | cons p rest =>
        obtain ⟨jid, h⟩ := p
        cases hss : setStatus jid .processing s.jobs with
        | none => simp [step, hcur, hq, hss] at hst
        | some jobs1 =>
          simp only [step, hcur, hq, hss, StepResult.ok.injEq] at hst
          subst hst
          simp only [setStatus] at hss
          have hnodup : (s.jobs.map Prod.fst).Nodup := (reachable_invR hR).nodup
          have hqm : (jid, h) :: rest =
              (queuedEntries s.jobs).map (fun p => (p.1, p.2.handle)) := by
            rw [← hq]
            exact inv.queueMatch
          cases qE : queuedEntries s.jobs with
          | nil =>
            rw [qE] at hqm
            cases hqm
          | cons q restQ =>
            obtain ⟨jid0, j0⟩ := q
            rw [qE] at hqm
            simp only [List.map_cons, List.cons.injEq] at hqm
            have hjid : jid0 = jid := (congrArg Prod.fst hqm.1).symm
            have hjh : j0.handle = h := (congrArg Prod.snd hqm.1).symm
            have hrest : rest = restQ.map (fun p => (p.1, p.2.handle)) := hqm.2
            rw [hjid] at qE
            have hlj0 : dictLookup jid s.jobs = some j0 :=
              dictLookup_eq_of_mem_nodup hnodup
                (mem_of_mem_queuedEntries
                  (show (jid, j0) ∈ queuedEntries s.jobs by
                    rw [qE]
                    exact List.mem_cons_self _ _))
            have hq1 : queuedEntries jobs1 = restQ :=
              updateJob_queuedEntries_head hnodup qE (by simp) hss
            refine ⟨?_, ?_, ?_⟩
            · show rest = _
              rw [update_positions]
              rw [@queuedEntries_updatePositionsFrom_keyHandle 1 jobs1, hq1]
              exact hrest
            · rw [update_positions, queuedEntries_updatePositionsFrom_positions,
                queuedEntries_updatePositionsFrom_length]
            · intro jid' h' hcur'
              simp only [Option.some.injEq] at hcur'
              have he1 : jid = jid' := congrArg Prod.fst hcur'
              have he2 : h = h' := congrArg Prod.snd hcur'
              rw [← he1, ← he2]
              refine ⟨{ j0 with status := .processing }, ?_, rfl, hjh⟩
              have hl1 : dictLookup jid jobs1 =
                  some { j0 with status := .processing } := by
                rw [updateJob_lookup_self hss, hlj0]
                rfl
              rw [update_positions]
              exact updatePositionsFrom_lookup_not_queued hl1 (by simp)
  | workerFinish out t =>
    cases hcur : s.current with
    | none => simp [step, hcur] at hst
    | some c =>
      obtain ⟨jid, h⟩ := c
      obtain ⟨j, hj, hjs, hjh⟩ := inv.currentJob jid h hcur
      cases out with
      | success m =>
        cases hss : setStatus jid .done (write_cache h
            { handle := h, date := t, posts := POST_LIMIT, mtld := m } s).jobs with
        | none => simp [step, hcur, hss] at hst
        | some jobs2 =>
          simp only [step, hcur, hss, StepResult.ok.injEq] at hst
          subst hst
          simp only [write_cache, setStatus] at hss
          have hqe : queuedEntries jobs2 = queuedEntries s.jobs :=
            updateJob_queuedEntries_of_not_queued hss hj
              (by rw [hjs]; simp) (by simp)
          refine ⟨?_, ?_, ?_⟩
          · show s.queue = _
            rw [hqe, ← inv.queueMatch]
          · rw [hqe]
            exact inv.positions
          · intro jid' h' hcur'
            cases hcur'
      | failure msg =>
        cases hss : markError jid msg s.jobs with
        | none => simp [step, hcur, hss] at hst
        | some jobs2 =>
          simp only [step, hcur, hss, StepResult.ok.injEq] at hst
          subst hst
          simp only [markError] at hss
          have hqe : queuedEntries jobs2 = queuedEntries s.jobs :=
            updateJob_queuedEntries_of_not_queued hss hj
              (by rw [hjs]; simp) (by simp)
          refine ⟨?_, ?_, ?_⟩
          · show s.queue = _
            rw [hqe, ← inv.queueMatch]
          · rw [hqe]
            exact inv.positions
          · intro jid' h' hcur'
            cases hcur'

theorem reachableNC_invNC {s : AppState} (h : ReachableNC s) : InvNC s := by
  induction h with
  | init => refine ⟨?_, ?_, ?_⟩ <;> simp [initState, queuedEntries]
  | next hr hfresh hstep ih =>
    exact invNC_step hr.toReachable hfresh hstep ih

theorem stepD_eq_of_ok {a : Step} {s s' : AppState}
    (h : step a s = .ok s') : stepD a s = s' := by
  simp [stepD, h]

/-- C1, counterexample: in the reachable state after `submit("alice")`,
the key `"alice"` is still absent from the cache, yet a second
`submit("alice")` in the same second creates no new job — the id collides
and the registry record count stays at 1, where the claim demands a new
job. -/
theorem submit_same_second_creates_no_new_job :
    Reachable (runD [.submit "alice" "T1"] initState) ∧
    dictLookup "alice" (runD [.submit "alice" "T1"] initState).cache = none ∧
    (mtld_route "alice" "T1" (runD [.submit "alice" "T1"] initState)).2.jobs.length =
      (runD [.submit "alice" "T1"] initState).jobs.length :=
  ⟨reachable_runD _ (by decide) Reachable.init, by decide, by decide⟩

/-- C2, counterexample: after two `submit("alice")` calls in the same
second (a reachable execution), exactly one job is Queued but its position
field is 2 — the positions of the Queued jobs are `[2]`, not the sequence
`1..1 = [1]` the claim requires. -/
theorem queued_positions_gap_after_id_collision :
    Reachable (runD [.submit "alice" "T1", .submit "alice" "T1"] initState) ∧
    queuedCount (runD [.submit "alice" "T1", .submit "alice" "T1"] initState) = 1 ∧
    queuedPositions (runD [.submit "alice" "T1", .submit "alice" "T1"] initState).jobs =
      [2] ∧
    List.range' 1
      (queuedCount (runD [.submit "alice" "T1", .submit "alice" "T1"] initState)) =
      [1] :=
  ⟨reachable_runD _ (by decide) Reachable.init, by decide, by decide, by decide⟩

/-- C6: `job_id_for` hashes only the handle and the second-resolution
timestamp, so two submissions of the same key within the same second are
issued the same job id; the second registration overwrites the first's
registry record (1 record for 2 submissions, the surviving record's
position rewritten from 1 to 2) while the queue holds 2 items. This
contradicts the claimed process-lifetime uniqueness of issued ids. -/
theorem same_second_submissions_share_job_id :
    (mtld_route "alice" "T1" initState).1 =
      .jobCreated (job_id_for "alice" "T1") ∧
    (mtld_route "alice" "T1" (runD [.submit "alice" "T1"] initState)).1 =
      .jobCreated (job_id_for "alice" "T1") ∧
    (dictLookup (job_id_for "alice" "T1")
        (runD [.submit "alice" "T1"] initState).jobs).map Job.position = some 1 ∧
    (dictLookup (job_id_for "alice" "T1")
        (runD [.submit "alice" "T1", .submit "alice" "T1"] initState).jobs).map
        Job.position = some 2 ∧
    (runD [.submit "alice" "T1", .submit "alice" "T1"] initState).jobs.length = 1 ∧
    (runD [.submit "alice" "T1", .submit "alice" "T1"] initState).queue.length = 2 :=
  ⟨by decide, by decide, by decide, by decide, by decide, by decide⟩

/-- C10: a missing `handle` query parameter (modelled as the empty string,
which like `None` is falsy for `assert handle, "handle required"`) makes
`mtld_route` raise the assertion error "handle required" immediately: no
job is registered, no id issued, and neither the cache, the queue, the
registry nor the worker state is read or modified. -/
theorem submit_missing_handle_asserts_before_state_change :
    ∀ (s : AppState) (t : String),
      mtld_route "" t s = (.assertFailed "handle required", s) :=
  fun _ _ => mtld_route_empty

theorem status_of_mem_queuedEntries {p : String × Job}
    {m : List (String × Job)} (h : p ∈ queuedEntries m) :
    p.2.status = .queued := by
  have := List.of_mem_filter h
  simpa using this

/-- C3, counterexample: a reachable (even collision-free) execution —
submit "alice" twice in different seconds while uncached, let the first
job succeed and the second fail — ends with the second job's terminal
status Error while the cache does contain an entry for its key "alice";
the claimed "cache contains the key iff the terminal status is Done" is
false for that job. -/
theorem error_job_with_cached_key :
    Reachable (runD [.submit "alice" "T1", .submit "alice" "T2", .workerBegin,
      .workerFinish (.success 7) "T3", .workerBegin,
      .workerFinish (.failure "boom") "T4"] initState) ∧
    (dictLookup "alice:T2" (runD [.submit "alice" "T1", .submit "alice" "T2",
      .workerBegin, .workerFinish (.success 7) "T3", .workerBegin,
      .workerFinish (.failure "boom") "T4"] initState).jobs).map Job.status =
      some .error ∧
    (dictLookup "alice" (runD [.submit "alice" "T1", .submit "alice" "T2",
      .workerBegin, .workerFinish (.success 7) "T3", .workerBegin,
      .workerFinish (.failure "boom") "T4"] initState).cache).isSome = true :=
  ⟨reachable_runD _ (by decide) Reachable.init, by decide, by decide⟩

/-- C3 (amended): when the worker finishes the job it is processing, the
terminal status is exactly Done on success and Error on failure; on Done
the cache contains the entry just written for the job's key; on Error the
finish leaves the cache mapping exactly as it was — the failed job writes
nothing, though the key may still be present from an earlier job for the
same key. -/
theorem worker_finish_terminal_and_cache
    (s : AppState) (jid h t : String) (hs : Reachable s)
    (hc : s.current = some (jid, h)) :
    (∀ m,
      step (.workerFinish (.success m) t) s =
        .ok (stepD (.workerFinish (.success m) t) s) ∧
      (dictLookup jid (stepD (.workerFinish (.success m) t) s).jobs).map
        Job.status = some .done ∧
      dictLookup h (stepD (.workerFinish (.success m) t) s).cache =
        some { handle := h, date := t, posts := POST_LIMIT, mtld := m }) ∧
    (∀ msg,
      step (.workerFinish (.failure msg) t) s =
        .ok (stepD (.workerFinish (.failure msg) t) s) ∧
      (dictLookup jid (stepD (.workerFinish (.failure msg) t) s).jobs).map
        Job.status = some .error ∧
      (stepD (.workerFinish (.failure msg) t) s).cache = s.cache) := by
  have hreg := (reachable_invR hs).currentReg jid h hc
  obtain ⟨j, hj⟩ := Option.isSome_iff_exists.mp hreg
  constructor
  · intro m
    cases hss : setStatus jid .done s.jobs with
    | none =>
      exfalso
      simp only [setStatus] at hss
      rw [updateJob_eq_none_iff.mp hss] at hj
      cases hj
    | some jobs2 =>
      refine ⟨?_, ?_, ?_⟩
      · simp [stepD, step, hc, write_cache, hss]
      · simp only [stepD, step, hc, write_cache, hss]
        simp only [setStatus] at hss
        rw [updateJob_lookup_self hss, hj]
        rfl
      · simp only [stepD, step, hc, write_cache, hss]
        exact dictLookup_dictInsert_self
  · intro msg
    cases hss : markError jid msg s.jobs with
    | none =>
      exfalso
      simp only [markError] at hss
      rw [updateJob_eq_none_iff.mp hss] at hj
      cases hj
    | some jobs2 =>
      refine ⟨?_, ?_, ?_⟩
      · simp [stepD, step, hc, hss]
      · simp only [stepD, step, hc, hss]
        simp only [markError] at hss
        rw [updateJob_lookup_self hss, hj]
        rfl
      · simp only [stepD, step, hc, hss]

theorem worker_finish_terminal_and_cache_witness :
    (runD [.submit "alice" "T1", .workerBegin] initState).current =
      some ("alice:T1", "alice") ∧
    (dictLookup "alice:T1" (stepD (.workerFinish (.failure "boom") "T2")
        (runD [.submit "alice" "T1", .workerBegin] initState)).jobs).map
      Job.status = some .error ∧
    (dictLookup "alice:T1" (stepD (.workerFinish (.success 7) "T2")
        (runD [.submit "alice" "T1", .workerBegin] initState)).jobs).map
      Job.status = some .done := by
  have H := worker_finish_terminal_and_cache
    (runD [.submit "alice" "T1", .workerBegin] initState)
    "alice:T1" "alice" "T2"
    (reachable_runD _ (by decide) Reachable.init) (by decide)
  exact ⟨by decide, (H.2 "boom").2.1, (H.1 7).2.1⟩

/-- C4: whatever exception the guarded per-job work raises (fetch, file
read, preprocessing, metric computation or the cache write — the whole
`try` block), the worker records the human-readable message in the job's
error field, marks the job Error, leaves cache and queue untouched, and
returns to dequeue the next item (its current slot is cleared); the step
completes (`ok`), never crashing the worker thread. -/
theorem worker_survives_job_failure
    (s : AppState) (jid h msg t : String) (hs : Reachable s)
    (hc : s.current = some (jid, h)) :
    step (.workerFinish (.failure msg) t) s =
      .ok (stepD (.workerFinish (.failure msg) t) s) ∧
    (dictLookup jid (stepD (.workerFinish (.failure msg) t) s).jobs).map
      (fun j => (j.status, j.error)) = some (.error, some msg) ∧
    (stepD (.workerFinish (.failure msg) t) s).current = none ∧
    (stepD (.workerFinish (.failure msg) t) s).queue = s.queue ∧
    (stepD (.workerFinish (.failure msg) t) s).cache = s.cache := by
  have hreg := (reachable_invR hs).currentReg jid h hc
  obtain ⟨j, hj⟩ := Option.isSome_iff_exists.mp hreg
  cases hss : markError jid msg s.jobs with
  | none =>
    exfalso
    simp only [markError] at hss
    rw [updateJob_eq_none_iff.mp hss] at hj
    cases hj
  | some jobs2 =>
    refine ⟨?_, ?_, ?_, ?_, ?_⟩
    · simp [stepD, step, hc, hss]
    · simp only [stepD, step, hc, hss]
      simp only [markError] at hss
      rw [updateJob_lookup_self hss, hj]
      rfl
    · simp only [stepD, step, hc, hss]
    · simp only [stepD, step, hc, hss]
    · simp only [stepD, step, hc, hss]

theorem worker_survives_job_failure_witness :
    (runD [.submit "carol" "T1", .workerBegin] initState).current =
      some ("carol:T1", "carol") ∧
    (dictLookup "carol:T1" (stepD (.workerFinish (.failure "account not found") "T2")
        (runD [.submit "carol" "T1", .workerBegin] initState)).jobs).map
      (fun j => (j.status, j.error)) =
      some (.error, some "account not found") ∧
    (stepD (.workerFinish (.failure "account not found") "T2")
        (runD [.submit "carol" "T1", .workerBegin] initState)).current = none := by
  have H := worker_survives_job_failure
    (runD [.submit "carol" "T1", .workerBegin] initState)
    "carol:T1" "carol" "account not found" "T2"
    (reachable_runD _ (by decide) Reachable.init) (by decide)
  exact ⟨by decide, H.2.1, H.2.2.1⟩

/-- C5, counterexample: after the id collision of two same-second
`submit("alice")` calls, the queue holds the same id twice; once the first
dequeue completes and the job is Done, the worker's second dequeue of the
same id sets the Done job's status back to Processing — a terminal job's
record changes again, which the claim forbids. -/
theorem done_job_reprocessed_after_id_collision :
    Reachable (runD [.submit "alice" "T1", .submit "alice" "T1", .workerBegin,
      .workerFinish (.success 7) "T2"] initState) ∧
    (dictLookup "alice:T1" (runD [.submit "alice" "T1", .submit "alice" "T1",
      .workerBegin, .workerFinish (.success 7) "T2"] initState).jobs).map
      Job.status = some .done ∧
    step .workerBegin (runD [.submit "alice" "T1", .submit "alice" "T1",
      .workerBegin, .workerFinish (.success 7) "T2"] initState) =
      .ok (runD [.submit "alice" "T1", .submit "alice" "T1", .workerBegin,
        .workerFinish (.success 7) "T2", .workerBegin] initState) ∧
    (dictLookup "alice:T1" (runD [.submit "alice" "T1", .submit "alice" "T1",
      .workerBegin, .workerFinish (.success 7) "T2", .workerBegin]
      initState).jobs).map Job.status = some .processing :=
  ⟨reachable_runD _ (by decide) Reachable.init, by decide, by decide, by decide⟩

/-- C5 (amended): in collision-free executions (no registration reuses an
id — the source only guarantees this when no two submissions of the same
key fall in the same second), a job whose status is Done or Error is never
modified again: every further completed step leaves its registry record
exactly as it is. -/
theorem terminal_job_immutable_of_fresh_ids
    (s s' : AppState) (a : Step) (jid : String) (j : Job)
    (hs : ReachableNC s) (hfresh : freshStep a s = true)
    (hst : step a s = .ok s') (hj : dictLookup jid s.jobs = some j)
    (ht : j.status = .done ∨ j.status = .error) :
    dictLookup jid s'.jobs = some j := by
  have hterm : j.status ≠ .queued := by
    rcases ht with h1 | h1 <;> rw [h1] <;> simp
  have htermp : j.status ≠ .processing := by
    rcases ht with h1 | h1 <;> rw [h1] <;> simp
  cases a with
  | submit h t =>
    simp only [step, StepResult.ok.injEq] at hst
    by_cases hh : h = ""
    · subst hh
      rw [mtld_route_empty] at hst
      rw [← hst]
      exact hj
    · cases hc : dictLookup h s.cache with
      | some e =>
        rw [mtld_route_cached hh hc] at hst
        rw [← hst]
        exact hj
      | none =>
        have hfree : dictLookup (job_id_for h t) s.jobs = none := by
          cases hjf : dictLookup (job_id_for h t) s.jobs with
          | none => rfl
          | some v =>
            exfalso
            simp only [freshStep] at hfresh
            rw [hjf, hc] at hfresh
            simp [hh] at hfresh
        rw [mtld_route_uncached hh hc] at hst
        subst hst
        by_cases hjj : jid = job_id_for h t
        · rw [hjj, hfree] at hj
          cases hj
        · simp only
          rw [dictLookup_dictInsert_ne hjj]
          exact hj
  | workerBegin =>
    cases hcur : s.current with
    | some c => simp [step, hcur] at hst
    | none =>
      cases hq : s.queue with
      | nil => simp [step, hcur, hq] at hst
      | cons p rest =>
        obtain ⟨jidq, hq0⟩ := p
        cases hss : setStatus jidq .processing s.jobs with
        | none => simp [step, hcur, hq, hss] at hst
        | some jobs1 =>
          simp only [step, hcur, hq, hss, StepResult.ok.injEq] at hst
          subst hst
          simp only [setStatus] at hss
          have hnodup : (s.jobs.map Prod.fst).Nodup :=
            (reachable_invR hs.toReachable).nodup
          have hqm : (jidq, hq0) :: rest =
              (queuedEntries s.jobs).map (fun p => (p.1, p.2.handle)) := by
            rw [← hq]
            exact (reachableNC_invNC hs).queueMatch
          cases qE : queuedEntries s.jobs with
          | nil =>
            rw [qE] at hqm
            cases hqm
          | cons q restQ =>
            obtain ⟨jid0, j0⟩ := q
            rw [qE] at hqm
            simp only [List.map_cons, List.cons.injEq] at hqm
            have hjid : jid0 = jidq := (congrArg Prod.fst hqm.1).symm
            have hmemq : (jid0, j0) ∈ queuedEntries s.jobs := by
              rw [qE]
              exact List.mem_cons_self _ _
            have hlj0 : dictLookup jid0 s.jobs = some j0 :=
              dictLookup_eq_of_mem_nodup hnodup (mem_of_mem_queuedEntries hmemq)
            have hq0s : j0.status = .queued := status_of_mem_queuedEntries hmemq
            have hne : jid ≠ jidq := by
              intro hcontra
              rw [← hjid] at hcontra
              rw [hcontra, hlj0] at hj
              have hjj : j0 = j := Option.some_inj.mp hj
              exact hterm (hjj ▸ hq0s)
            simp only
            rw [update_positions]
            refine updatePositionsFrom_lookup_not_queued ?_ hterm
            rw [updateJob_lookup_ne hss hne]
            exact hj
  | workerFinish out t =>
    cases hcur : s.current with
    | none => simp [step, hcur] at hst
    | some c =>
      obtain ⟨jidc, hcnd⟩ := c
      obtain ⟨jc, hljc, hjcs, hjch⟩ :=
        (reachableNC_invNC hs).currentJob jidc hcnd hcur
      have hne : jid ≠ jidc := by
        intro hcontra
        rw [hcontra, hljc] at hj
        have : jc = j := Option.some.injEq _ _ ▸ hj
        rw [← this] at htermp
        exact htermp hjcs
      cases out with
      | success m =>
        cases hss : setStatus jidc .done (write_cache hcnd
            { handle := hcnd, date := t, posts := POST_LIMIT, mtld := m } s).jobs with
        | none => simp [step, hcur, hss] at hst
        | some jobs2 =>
          simp only [step, hcur, hss, StepResult.ok.injEq] at hst
          subst hst
          simp only [write_cache, setStatus] at hss
          simp only
          rw [updateJob_lookup_ne hss hne]
          exact hj
      | failure msg =>
        cases hss : markError jidc msg s.jobs with
        | none => simp [step, hcur, hss] at hst
        | some jobs2 =>
          simp only [step, hcur, hss, StepResult.ok.injEq] at hst
          subst hst
          simp only [markError] at hss
          simp only
          rw [updateJob_lookup_ne hss hne]
          exact hj

theorem terminal_job_immutable_of_fresh_ids_witness :
    (dictLookup "alice:T1" (runD [.submit "alice" "T1", .workerBegin,
      .workerFinish (.success 7) "T2"] initState).jobs).map Job.status =
      some .done ∧
    dictLookup "alice:T1" (stepD (.submit "dave" "T3")
        (runD [.submit "alice" "T1", .workerBegin,
          .workerFinish (.success 7) "T2"] initState)).jobs =
      some { status := .done, handle := "alice", error := none, position := 1 } := by
  have H := terminal_job_immutable_of_fresh_ids
    (runD [.submit "alice" "T1", .workerBegin,
      .workerFinish (.success 7) "T2"] initState)
    (stepD (.submit "dave" "T3")
      (runD [.submit "alice" "T1", .workerBegin,
        .workerFinish (.success 7) "T2"] initState))
    (.submit "dave" "T3") "alice:T1"
    { status := .done, handle := "alice", error := none, position := 1 }
    (reachableNC_runD _ (by decide) ReachableNC.init)
    (by decide) (by decide) (by decide) (Or.inl rfl)
  exact ⟨by decide, H⟩

/-- C7: submitting a key that already has a cache entry in any reachable
state short-circuits: the whole state — registry, queue, cache, worker —
is returned unchanged (no job created, no id issued, queue length
untouched) and the caller is redirected to the existing cached result. -/
theorem submit_cached_no_job_no_state_change
    (s : AppState) (h t : String) (e : CacheEntry) (hs : Reachable s)
    (hc : dictLookup h s.cache = some e) :
    mtld_route h t s = (.cachedRedirect h, s) := by
  have hh : h ≠ "" := (reachable_invR hs).cacheNE h (by rw [hc]; rfl)
  exact mtld_route_cached hh hc

theorem submit_cached_no_job_no_state_change_witness :
    dictLookup "carol" (runD [.submit "carol" "T1", .workerBegin,
      .workerFinish (.success 42) "T2"] initState).cache =
      some { handle := "carol", date := "T2", posts := 500, mtld := 42 } ∧
    mtld_route "carol" "T3" (runD [.submit "carol" "T1", .workerBegin,
      .workerFinish (.success 42) "T2"] initState) =
      (.cachedRedirect "carol", runD [.submit "carol" "T1", .workerBegin,
        .workerFinish (.success 42) "T2"] initState) :=
  ⟨by decide,
    submit_cached_no_job_no_state_change
      (runD [.submit "carol" "T1", .workerBegin,
        .workerFinish (.success 42) "T2"] initState)
      "carol" "T3" { handle := "carol", date := "T2", posts := 500, mtld := 42 }
      (reachable_runD _ (by decide) Reachable.init) (by decide)⟩

/-- C8: `read_cache` returns the whole mapping as a value (the source
copies the shelf with `dict(cache)` before returning, which is what makes
the value semantics of this embedding faithful), and `write_cache` upserts
exactly one record into the store: after a write, the mapping read back is
the old snapshot with only the written key changed, so a snapshot taken
before the write still shows the old contents at every other key and is
safe to iterate without a lock. -/
theorem read_cache_snapshot_after_write
    (s : AppState) (k : String) (e : CacheEntry) :
    read_cache (write_cache k e s) = dictInsert k e (read_cache s) ∧
    dictLookup k (read_cache (write_cache k e s)) = some e ∧
    ∀ k', k' ≠ k →
      dictLookup k' (read_cache (write_cache k e s)) =
        dictLookup k' (read_cache s) :=
  ⟨rfl, dictLookup_dictInsert_self, fun _ hk => dictLookup_dictInsert_ne hk⟩

theorem read_cache_snapshot_after_write_witness :
    ("b" : String) ≠ "a" ∧
    dictLookup "b" (read_cache (write_cache "a"
        { handle := "a", date := "T", posts := 500, mtld := 7 } initState)) =
      dictLookup "b" (read_cache initState) :=
  ⟨by decide,
    (read_cache_snapshot_after_write initState "a"
      { handle := "a", date := "T", posts := 500, mtld := 7 }).2.2 "b" (by decide)⟩

/-- C9: `delete_from_cache.py` with a key present in the cache removes
exactly that record (every other key reads back unchanged) and exits 0;
with an absent key it deletes nothing, prints the sorted list of known
keys, and exits 1. -/
theorem delete_main_removes_or_fails_loudly
    (cache : List (String × CacheEntry)) (h : String)
    (hn : (cache.map Prod.fst).Nodup) :
    (∀ e, dictLookup h cache = some e →
      delete_main [h] cache = (.deleted e, dictRemove h cache, 0) ∧
      dictLookup h (dictRemove h cache) = none ∧
      ∀ k, k ≠ h → dictLookup k (dictRemove h cache) = dictLookup k cache) ∧
    (dictLookup h cache = none →
      delete_main [h] cache =
        (.notFound (sortStrings (cache.map Prod.fst)), cache, 1)) := by
  constructor
  · intro e he
    refine ⟨?_, dictLookup_dictRemove_self hn,
      fun k hk => dictLookup_dictRemove_ne hk⟩
    simp [delete_main, he]
  · intro he
    simp [delete_main, he]

theorem delete_main_removes_or_fails_loudly_witness :
    delete_main ["a"] [("a", { handle := "a", date := "T", posts := 500, mtld := 7 }),
        ("b", { handle := "b", date := "T", posts := 500, mtld := 9 })] =
      (.deleted { handle := "a", date := "T", posts := 500, mtld := 7 },
        [("b", { handle := "b", date := "T", posts := 500, mtld := 9 })], 0) ∧
    delete_main ["zed"] [("b", { handle := "b", date := "T", posts := 500, mtld := 9 }),
        ("a", { handle := "a", date := "T", posts := 500, mtld := 7 })] =
      (.notFound ["a", "b"],
        [("b", { handle := "b", date := "T", posts := 500, mtld := 9 }),
         ("a", { handle := "a", date := "T", posts := 500, mtld := 7 })], 1) := by
  have H1 := delete_main_removes_or_fails_loudly
    [("a", { handle := "a", date := "T", posts := 500, mtld := 7 }),
     ("b", { handle := "b", date := "T", posts := 500, mtld := 9 })] "a" (by decide)
  have H2 := delete_main_removes_or_fails_loudly
    [("b", { handle := "b", date := "T", posts := 500, mtld := 9 }),
     ("a", { handle := "a", date := "T", posts := 500, mtld := 7 })] "zed" (by decide)
  refine ⟨?_, ?_⟩
  · have := (H1.1 { handle := "a", date := "T", posts := 500, mtld := 7 }
      (by decide)).1
    exact this
  · have := H2.2 (by decide)
    exact this

theorem dictLookup_append_fresh {α : Type} {k : String} {v : α}
    {m : List (String × α)} (h : dictLookup k m = none) :
    dictLookup k (m ++ [(k, v)]) = some v := by
  rw [dictLookup_append_of_none h]
  simp [dictLookup]

theorem updateJob_queuedEntries_length_of_queued {k : String} {f : Job → Job}
    {m m' : List (String × Job)} {j : Job} (h : updateJob k f m = some m')
    (hl : dictLookup k m = some j) (hq : j.status = .queued)
    (hfj : (f j).status ≠ .queued) :
    (queuedEntries m').length + 1 = (queuedEntries m).length := by
  induction m generalizing m' with
  | nil => cases h
  | cons p rest ih =>
    obtain ⟨k1, j1⟩ := p
    by_cases hk : k1 = k
    · subst hk
      simp [updateJob] at h
      subst h
      simp [dictLookup] at hl
      subst hl
      rw [queuedEntries_cons, queuedEntries_cons, if_pos hq, if_neg hfj]
      simp
    · simp only [updateJob, if_neg hk] at h
      simp only [dictLookup, if_neg hk] at hl
      cases hu : updateJob k f rest with
      | none => rw [hu] at h; cases h
      | some r =>
        rw [hu] at h
        simp only [Option.map_some', Option.some.injEq] at h
        subst h
        rw [queuedEntries_cons, queuedEntries_cons]
        by_cases hq1 : j1.status = .queued
        · rw [if_pos hq1, if_pos hq1]
          simp only [List.length_cons]
          have := ih hu hl
          omega
        · rw [if_neg hq1, if_neg hq1]
          exact ih hu hl

theorem updatePositionsFrom_lookup_sh {i : Nat} {k : String} {j : Job}
    {m : List (String × Job)} (hl : dictLookup k m = some j) :
    ∃ j', dictLookup k (updatePositionsFrom i m) = some j' ∧
      j'.status = j.status ∧ j'.handle = j.handle := by
  induction m generalizing i with
  | nil => cases hl
  | cons p rest ih =>
    obtain ⟨k1, j1⟩ := p
    by_cases hk : k1 = k
    · subst hk
      simp [dictLookup] at hl
      subst hl
      by_cases hq : j1.status = .queued
      · refine ⟨{ j1 with position := i }, ?_, rfl, rfl⟩
        simp [updatePositionsFrom, hq, dictLookup]
      · refine ⟨j1, ?_, rfl, rfl⟩
        simp [updatePositionsFrom, hq, dictLookup]
    · simp only [dictLookup, if_neg hk] at hl
      by_cases hq : j1.status = .queued
      · simp only [updatePositionsFrom, if_pos hq]
        obtain ⟨j', hj', hs', hh'⟩ := @ih (i + 1) hl
        exact ⟨j', by simp [dictLookup, hk, hj'], hs', hh'⟩
      · simp only [updatePositionsFrom, if_neg hq]
        obtain ⟨j', hj', hs', hh'⟩ := @ih i hl
        exact ⟨j', by simp [dictLookup, hk, hj'], hs', hh'⟩

theorem register_empty {t : String} {fs : FState} :
    register "" t fs = (.assertFailed "handle required", fs) := by
  simp [register]

theorem register_cached {h t : String} {fs : FState} {e : CacheEntry}
    (hh : h ≠ "") (hc : dictLookup h fs.cache = some e) :
    register h t fs = (.cachedRedirect h, fs) := by
  simp [register, hh, hc]

theorem register_uncached {h t : String} {fs : FState}
    (hh : h ≠ "") (hc : dictLookup h fs.cache = none) :
    register h t fs =
      (.jobCreated (job_id_for h t),
        { fs with
          jobs := dictInsert (job_id_for h t)
            { status := .queued, handle := h, error := none,
              position := fs.queue.length + 1 } fs.jobs,
          pending := fs.pending ++ [(job_id_for h t, h)] }) := by
  simp [register, hh, hc]

theorem reachableFNC_runFD {fs : FState} (tr : List FStep)
    (h : okTraceFNC tr fs = true) (hs : FReachableNC fs) :
    FReachableNC (runFD tr fs) := by
  induction tr generalizing fs with
  | nil => exact hs
  | cons a rest ih =>
    simp only [okTraceFNC, Bool.and_eq_true] at h
    obtain ⟨hfresh, h⟩ := h
    cases hst : fstep a fs with
    | blocked => rw [hst] at h; cases h
    | crashed => rw [hst] at h; cases h
    | ok fs' =>
      rw [hst] at h
      have hd : stepFD a fs = fs' := by simp [stepFD, hst]
      simp only [runFD, hd]
      exact ih h (FReachableNC.next hs hfresh hst)


theorem register_empty_snd {t : String} {fs : FState} :
    (register "" t fs).2 = fs := by
  rw [register_empty]

theorem register_cached_snd {h t : String} {fs : FState} {e : CacheEntry}
    (hh : h ≠ "") (hc : dictLookup h fs.cache = some e) :
    (register h t fs).2 = fs := by
  rw [register_cached hh hc]

theorem register_uncached_snd {h t : String} {fs : FState}
    (hh : h ≠ "") (hc : dictLookup h fs.cache = none) :
    (register h t fs).2 =
      { fs with
        jobs := dictInsert (job_id_for h t)
          { status := .queued, handle := h, error := none,
            position := fs.queue.length + 1 } fs.jobs,
        pending := fs.pending ++ [(job_id_for h t, h)] } := by
  rw [register_uncached hh hc]

theorem removeFirst_perm {p : String × String}
    {l : List (String × String)} (h : p ∈ l) :
    List.Perm l (p :: removeFirst p l) := by
  induction l with
  | nil => cases h
  | cons q rest ih =>
    by_cases hq : q = p
    · subst hq
      simp [removeFirst]
    · have hp : p ∈ rest := by
        rcases List.mem_cons.mp h with h1 | h1
        · exact absurd h1.symm hq
        · exact h1
      rw [show removeFirst p (q :: rest) = q :: removeFirst p rest from by
        simp [removeFirst, hq]]
      exact (List.Perm.cons q (ih hp)).trans (List.Perm.swap p q _)

theorem removeFirst_length {p : String × String}
    {l : List (String × String)} (h : p ∈ l) :
    (removeFirst p l).length + 1 = l.length := by
  induction l with
  | nil => cases h
  | cons q rest ih =>
    by_cases hq : q = p
    · subst hq
      simp [removeFirst]
    · have hp : p ∈ rest := by
        rcases List.mem_cons.mp h with h1 | h1
        · exact absurd h1.symm hq
        · exact h1
      simp [removeFirst, hq, ih hp]

theorem finvNC_step {a : FStep} {fs fs' : FState}
    (hfresh : freshStepF a fs = true) (hst : fstep a fs = .ok fs')
    (inv : FInvNC fs) : FInvNC fs' := by
  cases a with
  | register h t =>
    simp only [fstep, FStepResult.ok.injEq] at hst
    by_cases hh : h = ""
    · subst hh
      rw [register_empty_snd] at hst
      exact hst ▸ inv
    · cases hc : dictLookup h fs.cache with
      | some e =>
        rw [register_cached_snd hh hc] at hst
        exact hst ▸ inv
      | none =>
        have hfree : dictLookup (job_id_for h t) fs.jobs = none := by
          cases hjf : dictLookup (job_id_for h t) fs.jobs with
          | none => rfl
          | some v =>
            exfalso
            simp only [freshStepF] at hfresh
            rw [hjf, hc] at hfresh
            simp [hh] at hfresh
        rw [register_uncached_snd hh hc] at hst
        subst hst
        have hins : dictInsert (job_id_for h t)
            { status := .queued, handle := h, error := none,
              position := fs.queue.length + 1 } fs.jobs =
            fs.jobs ++ [(job_id_for h t,
              { status := .queued, handle := h, error := none,
                position := fs.queue.length + 1 })] :=
          dictInsert_of_lookup_none hfree
        have hnotin : job_id_for h t ∉
            (fs.queue ++ fs.pending ++ fs.taken.toList).map Prod.fst := by
          intro hmem
          obtain ⟨p, hp, hpk⟩ := List.mem_map.mp hmem
          obtain ⟨j0, hj0, _, _⟩ := inv.items p hp
          rw [hpk, hfree] at hj0
          cases hj0
        have hperm : List.Perm
            (fs.queue ++ (fs.pending ++ [(job_id_for h t, h)]) ++ fs.taken.toList)
            ((job_id_for h t, h) :: (fs.queue ++ fs.pending ++ fs.taken.toList)) := by
          have h1 : List.Perm (fs.pending ++ [(job_id_for h t, h)])
              ((job_id_for h t, h) :: fs.pending) :=
            List.perm_append_singleton _ _
          have h2 : List.Perm
              (fs.queue ++ (fs.pending ++ [(job_id_for h t, h)]) ++ fs.taken.toList)
              (fs.queue ++ ((job_id_for h t, h) :: fs.pending) ++ fs.taken.toList) :=
            List.Perm.append_right _ (List.Perm.append_left _ h1)
          refine h2.trans ?_
          have h3 : fs.queue ++ ((job_id_for h t, h) :: fs.pending) ++ fs.taken.toList =
              fs.queue ++ (job_id_for h t, h) :: (fs.pending ++ fs.taken.toList) := by
            simp [List.append_assoc]
          rw [h3, List.append_assoc fs.queue fs.pending fs.taken.toList]
          exact List.perm_middle
        have hlookNew : dictLookup (job_id_for h t)
            (dictInsert (job_id_for h t)
              { status := .queued, handle := h, error := none,
                position := fs.queue.length + 1 } fs.jobs) =
            some { status := .queued, handle := h, error := none,
                   position := fs.queue.length + 1 } := by
          rw [hins]
          exact dictLookup_append_fresh hfree
        have hlookOld : ∀ k (v : Job), dictLookup k fs.jobs = some v →
            dictLookup k (dictInsert (job_id_for h t)
              { status := .queued, handle := h, error := none,
                position := fs.queue.length + 1 } fs.jobs) = some v := by
          intro k v hv
          rw [hins]
          exact dictLookup_append_left hv
        refine ⟨?_, ?_, ?_, ?_⟩
        · intro p hp
          have hp' : p ∈ (job_id_for h t, h) ::
              (fs.queue ++ fs.pending ++ fs.taken.toList) := hperm.subset hp
          rcases List.mem_cons.mp hp' with hpnew | hpold
          · subst hpnew
            exact ⟨_, hlookNew, rfl, rfl⟩
          · obtain ⟨j0, hj0, hjs, hjh⟩ := inv.items p hpold
            exact ⟨j0, hlookOld p.1 j0 hj0, hjs, hjh⟩
        · have hnd : (((job_id_for h t, h) ::
              (fs.queue ++ fs.pending ++ fs.taken.toList)).map Prod.fst).Nodup := by
            simp only [List.map_cons]
            rw [List.nodup_cons]
            exact ⟨hnotin, inv.itemsNodup⟩
          exact ((hperm.map Prod.fst).nodup_iff).mpr (by simpa using hnd)
        · have hqe : queuedEntries (fs.jobs ++ [(job_id_for h t,
              { status := .queued, handle := h, error := none,
                position := fs.queue.length + 1 })]) =
              queuedEntries fs.jobs ++ [(job_id_for h t,
                { status := .queued, handle := h, error := none,
                  position := fs.queue.length + 1 })] := by
            rw [queuedEntries_append]
            congr 1
          show (queuedEntries (dictInsert (job_id_for h t)
              { status := .queued, handle := h, error := none,
                position := fs.queue.length + 1 } fs.jobs)).length =
            fs.queue.length + (fs.pending ++ [(job_id_for h t, h)]).length +
              fs.taken.toList.length
          rw [hins, hqe]
          have := inv.count
          simp only [List.length_append, List.length_cons, List.length_nil]
          omega
        · intro jid' h' hcur'
          obtain ⟨j0, hj0, hjs⟩ := inv.currentJob jid' h' hcur'
          exact ⟨j0, hlookOld jid' j0 hj0, hjs⟩
  | enqueue p =>
    by_cases hp : p ∈ fs.pending
    · simp only [fstep, if_pos hp, FStepResult.ok.injEq] at hst
      subst hst
      have hperm : List.Perm
          ((fs.queue ++ [p]) ++ removeFirst p fs.pending ++ fs.taken.toList)
          (fs.queue ++ fs.pending ++ fs.taken.toList) := by
        refine List.Perm.append_right _ ?_
        have h2 : (fs.queue ++ [p]) ++ removeFirst p fs.pending =
            fs.queue ++ (p :: removeFirst p fs.pending) := by
          simp [List.append_assoc]
        rw [h2]
        exact List.Perm.append_left _ (removeFirst_perm hp).symm
      refine ⟨?_, ?_, ?_, ?_⟩
      · intro q hq
        exact inv.items q (hperm.subset hq)
      · exact ((hperm.map Prod.fst).nodup_iff).mpr inv.itemsNodup
      · have hlen := removeFirst_length hp
        have := inv.count
        show (queuedEntries fs.jobs).length =
          (fs.queue ++ [p]).length + (removeFirst p fs.pending).length +
            fs.taken.toList.length
        simp only [List.length_append, List.length_cons, List.length_nil]
        omega
      · intro jid h0 hcur
        exact inv.currentJob jid h0 hcur
    · simp [fstep, hp] at hst
  | take =>
    cases hcur : fs.current with
    | some c => simp [fstep, hcur] at hst
    | none =>
      cases htk : fs.taken with
      | some c => simp [fstep, hcur, htk] at hst
      | none =>
        cases hq : fs.queue with
        | nil => simp [fstep, hcur, htk, hq] at hst
        | cons p rest =>
          simp only [fstep, hcur, htk, hq, FStepResult.ok.injEq] at hst
          subst hst
          have hperm : List.Perm (rest ++ fs.pending ++ [p])
              (fs.queue ++ fs.pending ++ fs.taken.toList) := by
            rw [hq, htk]
            have h1 : List.Perm ((rest ++ fs.pending) ++ [p])
                (p :: (rest ++ fs.pending)) := List.perm_append_singleton _ _
            simpa using h1
          refine ⟨?_, ?_, ?_, ?_⟩
          · intro q hqm
            have hqm' : q ∈ rest ++ fs.pending ++ [p] := by simpa using hqm
            exact inv.items q (hperm.subset hqm')
          · have : ((rest ++ fs.pending ++ [p]).map Prod.fst).Nodup :=
              ((hperm.map Prod.fst).nodup_iff).mpr inv.itemsNodup
            simpa using this
          · have hcnt := inv.count
            rw [hq, htk] at hcnt
            show (queuedEntries fs.jobs).length =
              rest.length + fs.pending.length +
                (Option.toList (some p)).length
            simp only [List.length_cons, Option.toList, List.length_nil] at hcnt ⊢
            omega
          · intro jid h0 hcur'
            simp at hcur'
  | mark =>
    cases htk : fs.taken with
    | none => simp [fstep, htk] at hst
    | some c =>
      obtain ⟨jid, h⟩ := c
      cases hss : setStatus jid .processing fs.jobs with
      | none => simp [fstep, htk, hss] at hst
      | some jobs1 =>
        simp only [fstep, htk, hss, FStepResult.ok.injEq] at hst
        subst hst
        simp only [setStatus] at hss
        have hmemT : (jid, h) ∈ fs.queue ++ fs.pending ++ fs.taken.toList := by
          rw [htk]
          exact List.mem_append.mpr (Or.inr (by simp))
        obtain ⟨j0, hlj0, hq0, hh0⟩ := inv.items (jid, h) hmemT
        have h1 : ((fs.queue ++ fs.pending).map Prod.fst ++ [jid]).Nodup := by
          have hn := inv.itemsNodup
          rw [htk] at hn
          simpa [List.map_append] using hn
        have hjid_notin : jid ∉ (fs.queue ++ fs.pending).map Prod.fst :=
          fun hmem => (List.nodup_append.mp h1).2.2 hmem (by simp)
        refine ⟨?_, ?_, ?_, ?_⟩
        · intro q hqm
          have hqm' : q ∈ fs.queue ++ fs.pending := by simpa using hqm
          obtain ⟨j1, hj1, hq1, hh1⟩ := inv.items q
            (List.mem_append.mpr (Or.inl hqm'))
          have hqne : q.1 ≠ jid := by
            intro hcontra
            apply hjid_notin
            rw [← hcontra]
            exact List.mem_map.mpr ⟨q, hqm', rfl⟩
          have hl1 : dictLookup q.1 jobs1 = some j1 := by
            rw [updateJob_lookup_ne hss hqne]
            exact hj1
          obtain ⟨j2, hj2, hs2, hh2⟩ := updatePositionsFrom_lookup_sh hl1
          exact ⟨j2, hj2, by rw [hs2]; exact hq1, by rw [hh2]; exact hh1⟩
        · have hnd : ((fs.queue ++ fs.pending).map Prod.fst).Nodup :=
            (List.nodup_append.mp h1).1
          simpa using hnd
        · have hlen1 : (queuedEntries jobs1).length + 1 =
              (queuedEntries fs.jobs).length :=
            updateJob_queuedEntries_length_of_queued hss hlj0 hq0 (by simp)
          have hlen2 : (queuedEntries (update_positions jobs1)).length =
              (queuedEntries jobs1).length := by
            rw [update_positions]
            exact queuedEntries_updatePositionsFrom_length
          have hcnt := inv.count
          rw [htk] at hcnt
          simp only [Option.toList, List.length_cons, List.length_nil] at hcnt
          show (queuedEntries (update_positions jobs1)).length =
            fs.queue.length + fs.pending.length +
              (Option.toList (none : Option (String × String))).length
          simp only [Option.toList, List.length_nil]
          omega
        · intro jid' h' hcur'
          have hcur'' : (jid, h) = (jid', h') := by simpa using hcur'
          have he1 : jid = jid' := congrArg Prod.fst hcur''
          rw [← he1]
          have hl1 : dictLookup jid jobs1 =
              some { j0 with status := .processing } := by
            rw [updateJob_lookup_self hss, hlj0]
            rfl
          obtain ⟨j2, hj2, hs2, _⟩ := updatePositionsFrom_lookup_sh hl1
          exact ⟨j2, hj2, by rw [hs2]⟩
  | finish out t =>
    cases hcur : fs.current with
    | none => simp [fstep, hcur] at hst
    | some c =>
      obtain ⟨jid, h⟩ := c
      obtain ⟨jc, hljc, hjcs⟩ := inv.currentJob jid h hcur
      have hne : ∀ q ∈ fs.queue ++ fs.pending ++ fs.taken.toList, q.1 ≠ jid := by
        intro q hq hcontra
        obtain ⟨j1, hj1, hq1, _⟩ := inv.items q hq
        rw [hcontra, hljc] at hj1
        have hj1' : jc = j1 := Option.some_inj.mp hj1
        rw [← hj1', hjcs] at hq1
        cases hq1
      cases out with
      | success m =>
        cases hss : setStatus jid .done fs.jobs with
        | none => simp [fstep, hcur, hss] at hst
        | some jobs2 =>
          simp only [fstep, hcur, hss, FStepResult.ok.injEq] at hst
          subst hst
          simp only [setStatus] at hss
          have hqe : queuedEntries jobs2 = queuedEntries fs.jobs :=
            updateJob_queuedEntries_of_not_queued hss hljc
              (by rw [hjcs]; simp) (by simp)
          refine ⟨?_, ?_, ?_, ?_⟩
          · intro q hq
            obtain ⟨j1, hj1, hq1, hh1⟩ := inv.items q hq
            refine ⟨j1, ?_, hq1, hh1⟩
            rw [updateJob_lookup_ne hss (hne q hq)]
            exact hj1
          · exact inv.itemsNodup
          · show (queuedEntries jobs2).length = _
            rw [hqe]
            exact inv.count
          · intro jid' h' hcur'
            cases hcur'
      | failure msg =>
        cases hss : markError jid msg fs.jobs with
        | none => simp [fstep, hcur, hss] at hst
        | some jobs2 =>
          simp only [fstep, hcur, hss, FStepResult.ok.injEq] at hst
          subst hst
          simp only [markError] at hss
          have hqe : queuedEntries jobs2 = queuedEntries fs.jobs :=
            updateJob_queuedEntries_of_not_queued hss hljc
              (by rw [hjcs]; simp) (by simp)
          refine ⟨?_, ?_, ?_, ?_⟩
          · intro q hq
            obtain ⟨j1, hj1, hq1, hh1⟩ := inv.items q hq
            refine ⟨j1, ?_, hq1, hh1⟩
            rw [updateJob_lookup_ne hss (hne q hq)]
            exact hj1
          · exact inv.itemsNodup
          · show (queuedEntries jobs2).length = _
            rw [hqe]
            exact inv.count
          · intro jid' h' hcur'
            cases hcur'

theorem reachableFNC_finvNC {fs : FState} (h : FReachableNC fs) : FInvNC fs := by
  induction h with
  | init =>
    refine ⟨?_, ?_, ?_, ?_⟩ <;> simp [initF, queuedEntries]
  | next _ hfresh hstep ih => exact finvNC_step hfresh hstep ih

theorem posInv_mark {fs fs' : FState} (h : fstep .mark fs = .ok fs') :
    PosInv fs' := by
  cases htk : fs.taken with
  | none => simp [fstep, htk] at h
  | some c =>
    obtain ⟨jid, hh⟩ := c
    cases hss : setStatus jid .processing fs.jobs with
    | none => simp [fstep, htk, hss] at h
    | some jobs1 =>
      simp only [fstep, htk, hss, FStepResult.ok.injEq] at h
      subst h
      simp only [setStatus] at hss
      constructor
      · show (queuedEntries (updatePositionsFrom 1 jobs1)).map
            (fun p => p.2.position) =
          List.range' 1 (queuedEntries (updatePositionsFrom 1 jobs1)).length
        rw [queuedEntries_updatePositionsFrom_positions,
          queuedEntries_updatePositionsFrom_length]
      · intro jid' h' hcur'
        have hcur'' : (jid, hh) = (jid', h') := by simpa using hcur'
        have he1 : jid = jid' := congrArg Prod.fst hcur''
        rw [← he1]
        cases hl : dictLookup jid fs.jobs with
        | none =>
          exfalso
          rw [updateJob_eq_none_iff.mpr hl] at hss
          cases hss
        | some j0 =>
          have hl1 : dictLookup jid jobs1 =
              some { j0 with status := .processing } := by
            rw [updateJob_lookup_self hss, hl]
            rfl
          obtain ⟨j2, hj2, hs2, _⟩ := updatePositionsFrom_lookup_sh hl1
          exact ⟨j2, hj2, by rw [hs2]; simp⟩

theorem posInv_step {a : FStep} {fs fs' : FState}
    (hreg : a.isRegister = false) (h : fstep a fs = .ok fs')
    (hp : PosInv fs) : PosInv fs' := by
  cases a with
  | register h0 t => simp [FStep.isRegister] at hreg
  | enqueue p =>
    by_cases hq : p ∈ fs.pending
    · simp only [fstep, if_pos hq, FStepResult.ok.injEq] at h
      subst h
      exact ⟨hp.1, hp.2⟩
    · simp [fstep, hq] at h
  | take =>
    cases hcur : fs.current with
    | some c => simp [fstep, hcur] at h
    | none =>
      cases htk : fs.taken with
      | some c => simp [fstep, hcur, htk] at h
      | none =>
        cases hq : fs.queue with
        | nil => simp [fstep, hcur, htk, hq] at h
        | cons p rest =>
          simp only [fstep, hcur, htk, hq, FStepResult.ok.injEq] at h
          subst h
          refine ⟨hp.1, ?_⟩
          intro jid h0 hcur'
          simp at hcur'
  | mark => exact posInv_mark h
  | finish out t =>
    cases hcur : fs.current with
    | none => simp [fstep, hcur] at h
    | some c =>
      obtain ⟨jid, hh⟩ := c
      obtain ⟨jc, hljc, hjcs⟩ := hp.2 jid hh hcur
      cases out with
      | success m =>
        cases hss : setStatus jid .done fs.jobs with
        | none => simp [fstep, hcur, hss] at h
        | some jobs2 =>
          simp only [fstep, hcur, hss, FStepResult.ok.injEq] at h
          subst h
          simp only [setStatus] at hss
          have hqe : queuedEntries jobs2 = queuedEntries fs.jobs :=
            updateJob_queuedEntries_of_not_queued hss hljc hjcs (by simp)
          refine ⟨?_, ?_⟩
          · show (queuedEntries jobs2).map (fun p => p.2.position) =
              List.range' 1 (queuedEntries jobs2).length
            rw [hqe]
            exact hp.1
          · intro jid' h' hcur'
            simp at hcur'
      | failure msg =>
        cases hss : markError jid msg fs.jobs with
        | none => simp [fstep, hcur, hss] at h
        | some jobs2 =>
          simp only [fstep, hcur, hss, FStepResult.ok.injEq] at h
          subst h
          simp only [markError] at hss
          have hqe : queuedEntries jobs2 = queuedEntries fs.jobs :=
            updateJob_queuedEntries_of_not_queued hss hljc hjcs (by simp)
          refine ⟨?_, ?_⟩
          · show (queuedEntries jobs2).map (fun p => p.2.position) =
              List.range' 1 (queuedEntries jobs2).length
            rw [hqe]
            exact hp.1
          · intro jid' h' hcur'
            simp at hcur'

/-- Refined-semantics exhibit: two overlapping submissions of distinct
handles, each having completed its `_jobs_lock` registration (both
reading `qsize = 0`) before either performs its unlocked `_queue.put` —
a collision-free reachable state whose two Queued jobs both carry
position 1, which persists until the next `update_positions()` call. -/
theorem overlapping_registrations_duplicate_position_one :
    okTraceFNC [.register "alice" "T1", .register "bob" "T2"] initF = true ∧
    queuedPositions (runFD [.register "alice" "T1", .register "bob" "T2"]
      initF).jobs = [1, 1] :=
  ⟨by decide, by decide⟩

/-- Refined-semantics exhibit: a submission completing while the worker
sits between `_queue.get()` and its lock region. The dequeued job is
still Queued with position 1, the queue is already empty, so the new
submission also records position 0 + 1 = 1: two Queued jobs with
position 1 and none with position 2, without any id reuse. -/
theorem registration_in_worker_gap_duplicates_position :
    okTraceFNC [.register "alice" "T1", .enqueue ("alice:T1", "alice"), .take,
      .register "bob" "T2"] initF = true ∧
    queuedPositions (runFD [.register "alice" "T1",
      .enqueue ("alice:T1", "alice"), .take, .register "bob" "T2"]
      initF).jobs = [1, 1] :=
  ⟨by decide, by decide⟩

/-- C1 (amended): for every key not present in the cache, provided the
issued id (a hash of the key and the current second) is not already
registered, the registration half of `submit(key)` creates exactly one
new job — with status Queued, no error, and position equal to one plus
the number of items then in the work queue — leaves every other registry
record unchanged, and the request returns that job's id. The recorded
position equals (number of Queued jobs before the submission) + 1
whenever no other submission is in flight between its registration and
its `put` and the worker is not between its dequeue and its transition
region (final conjunct, via the accounting invariant); in those gaps the
queue length undercounts the Queued jobs and the position can duplicate
an existing one. -/
theorem register_uncached_fresh_creates_one_queued_job
    (fs : FState) (h t : String) (hs : FReachableNC fs) (hh : h ≠ "")
    (hc : dictLookup h fs.cache = none)
    (hf : dictLookup (job_id_for h t) fs.jobs = none) :
    (register h t fs).1 = .jobCreated (job_id_for h t) ∧
    (register h t fs).2.jobs.length = fs.jobs.length + 1 ∧
    dictLookup (job_id_for h t) (register h t fs).2.jobs =
      some { status := .queued, handle := h, error := none,
             position := fs.queue.length + 1 } ∧
    (∀ k, k ≠ job_id_for h t →
      dictLookup k (register h t fs).2.jobs = dictLookup k fs.jobs) ∧
    (fs.pending = [] → fs.taken = none →
      fs.queue.length = (queuedEntries fs.jobs).length) := by
  have hinv := reachableFNC_finvNC hs
  rw [register_uncached hh hc]
  have hlen : (dictInsert (job_id_for h t)
      { status := .queued, handle := h, error := none,
        position := fs.queue.length + 1 } fs.jobs).length =
      fs.jobs.length + 1 := by
    rw [dictInsert_of_lookup_none hf]
    simp
  refine ⟨rfl, hlen, dictLookup_dictInsert_self,
    fun k hk => dictLookup_dictInsert_ne hk, ?_⟩
  intro hpend htak
  have hcnt := hinv.count
  rw [hpend, htak] at hcnt
  simp only [List.length_nil, Option.toList, Nat.add_zero] at hcnt
  omega

theorem register_uncached_fresh_creates_one_queued_job_witness :
    dictLookup "alice"
      (runFD [.register "bob" "T0", .enqueue ("bob:T0", "bob")] initF).cache =
      none ∧
    (register "alice" "T1"
      (runFD [.register "bob" "T0", .enqueue ("bob:T0", "bob")] initF)).1 =
      .jobCreated (job_id_for "alice" "T1") ∧
    (register "alice" "T1"
        (runFD [.register "bob" "T0", .enqueue ("bob:T0", "bob")] initF)).2.jobs.length =
      (runFD [.register "bob" "T0", .enqueue ("bob:T0", "bob")] initF).jobs.length + 1 ∧
    (runFD [.register "bob" "T0", .enqueue ("bob:T0", "bob")] initF).queue.length =
      (queuedEntries
        (runFD [.register "bob" "T0", .enqueue ("bob:T0", "bob")] initF).jobs).length := by
  have H := register_uncached_fresh_creates_one_queued_job
    (runFD [.register "bob" "T0", .enqueue ("bob:T0", "bob")] initF) "alice" "T1"
    (reachableFNC_runFD _ (by decide) FReachableNC.init)
    (by decide) (by decide) (by decide)
  exact ⟨by decide, H.1, H.2.1, H.2.2.2.2 (by decide) (by decide)⟩

/-- C2 (amended): the position fields of the Queued jobs form exactly
the sequence 1..K (K = queued count, ranked by registry submission
order, no gaps, no duplicates) immediately after every completion of the
worker's transition region — the `_jobs_lock` region that calls
`update_positions()` — and they remain exactly 1..K across every further
completed enqueue, dequeue and job finish until the next registration
completes. (A registration records position = live queue length + 1,
which can duplicate an existing position while another submission is
between its registration and its `put` or the worker is between its
dequeue and its transition region — see the two exhibits above — and an
id collision can additionally overwrite a record; every such drift lasts
only until the next `update_positions()` call, which this theorem shows
restores 1..K unconditionally.) -/
theorem queued_positions_after_update_positions
    (fs fs1 : FState) (tr : List FStep)
    (hm : fstep .mark fs = .ok fs1)
    (hreg : ∀ a ∈ tr, FStep.isRegister a = false)
    (hok : okTraceF tr fs1 = true) :
    queuedPositions (runFD tr fs1).jobs =
      List.range' 1 (queuedEntries (runFD tr fs1).jobs).length := by
  have h0 : PosInv fs1 := posInv_mark hm
  have H : ∀ (tr2 : List FStep) (g : FState),
      (∀ a ∈ tr2, FStep.isRegister a = false) → okTraceF tr2 g = true →
        PosInv g → PosInv (runFD tr2 g) := by
    intro tr2
    induction tr2 with
    | nil => intro g _ _ hp; exact hp
    | cons a rest ih =>
      intro g hr hok2 hp2
      simp only [okTraceF] at hok2
      cases hst : fstep a g with
      | blocked => rw [hst] at hok2; cases hok2
      | crashed => rw [hst] at hok2; cases hok2
      | ok g' =>
        rw [hst] at hok2
        have hd : stepFD a g = g' := by simp [stepFD, hst]
        simp only [runFD, hd]
        exact ih g' (fun b hb => hr b (List.mem_cons_of_mem _ hb)) hok2
          (posInv_step (hr a (List.mem_cons_self _ _)) hst hp2)
  exact (H tr fs1 hreg hok h0).1

theorem queued_positions_after_update_positions_witness :
    fstep .mark (runFD [.register "alice" "T1", .register "bob" "T2",
        .enqueue ("alice:T1", "alice"), .enqueue ("bob:T2", "bob"), .take]
        initF) =
      .ok (runFD [.register "alice" "T1", .register "bob" "T2",
        .enqueue ("alice:T1", "alice"), .enqueue ("bob:T2", "bob"), .take,
        .mark] initF) ∧
    queuedPositions (runFD [.finish (.failure "account not found") "T3"]
        (runFD [.register "alice" "T1", .register "bob" "T2",
          .enqueue ("alice:T1", "alice"), .enqueue ("bob:T2", "bob"), .take,
          .mark] initF)).jobs =
      List.range' 1 (queuedEntries
        (runFD [.finish (.failure "account not found") "T3"]
          (runFD [.register "alice" "T1", .register "bob" "T2",
            .enqueue ("alice:T1", "alice"), .enqueue ("bob:T2", "bob"), .take,
            .mark] initF)).jobs).length := by
  refine ⟨by decide, ?_⟩
  exact queued_positions_after_update_positions
    (runFD [.register "alice" "T1", .register "bob" "T2",
      .enqueue ("alice:T1", "alice"), .enqueue ("bob:T2", "bob"), .take] initF)
    (runFD [.register "alice" "T1", .register "bob" "T2",
      .enqueue ("alice:T1", "alice"), .enqueue ("bob:T2", "bob"), .take,
      .mark] initF)
    [.finish (.failure "account not found") "T3"]
    (by decide) (by decide) (by decide)
